import Mathlib

/-!
Shallow embedding of the `kvs` log-structured key/value store from
`src/lib.rs`.

Modelling conventions, all derived from the source:

* A log segment file is modelled as a `List Command` (the sequence of
  records it holds).  The source stores byte offsets of record starts;
  records are self-delimiting and every stored offset is a record
  boundary, so an offset is modelled as the index of the record that
  starts there, and "decode one record at offset o" becomes indexing.
* The byte size of a serialized record is modelled by `encSize`, the
  length of the JSON object the source writes (string escaping is not
  modelled; no claim depends on the exact byte count).
* `HashMap<LogID, File>` (the reader map, one reader per on-disk file,
  with identical contents) is modelled as an association list from
  segment id to file content, kept sorted by id; a hash map has no
  observable order and every access in the source goes through keyed
  lookup, modelled by `assocLookup`.
* `BTreeMap<String, ValueEntry>` is modelled as an association list
  sorted by key (`dirInsert` is ordered insertion), which also models
  the ascending-key iteration order of `iter_mut`.
* I/O and serde failures are not modelled; the `expect` calls in the
  source are modelled by the `panicked` outcome.  A fallible operation
  on `&mut self` that returns `Err` leaves the store as is, so the
  error outcome carries the (unchanged) store.
-/

inductive Command where
  | Set (key val : String)
  | Remove (key : String)
deriving DecidableEq

def Command.cmdKey : Command → String
  | .Set k _ => k
  | .Remove k => k

def Command.isSet : Command → Bool
  | .Set _ _ => true
  | .Remove _ => false

structure ValueEntry where
  log_id : Nat
  log_offset : Nat
deriving DecidableEq

abbrev Dir := List (String × ValueEntry)

structure KvStore where
  log_readers : List (Nat × List Command)
  log_id : Nat
  key_dir : Dir
  size : Nat
deriving DecidableEq

inductive KvsError where
  | Io
  | Serde
  | KeyNotFound
  | UnexpectedCommandType
deriving DecidableEq

/-- Result of `get` (`Result<Option<String>>` in the source, plus the
panicking outcome of the `expect` call). -/
inductive GetRes where
  | ok (v : Option String)
  | err (e : KvsError)
  | panicked (msg : String)
deriving DecidableEq

/-- Result of a mutating operation (`Result<()>` on `&mut self`): on
success the updated store, on error the store as left behind (the error
paths of the source mutate nothing before returning), or a panic. -/
inductive OpRes where
  | ok (s : KvStore)
  | err (e : KvsError) (s : KvStore)
  | panicked (msg : String)
deriving DecidableEq

def COMPACTION_THRESHOLD : Nat := 1024 * 1024

/-- Byte length of the JSON encoding written by `serde_json::to_writer`
(escaping not modelled). -/
def encSize : Command → Nat
  | .Set k v => 27 + k.utf8ByteSize + v.utf8ByteSize
  | .Remove k => 21 + k.utf8ByteSize

/-- Keyed lookup in the reader map. -/
def assocLookup (l : List (Nat × List Command)) (i : Nat) : Option (List Command) :=
  match l with
  | [] => none
  | p :: rest => if p.1 = i then some p.2 else assocLookup rest i

/-- Append one record to the file with id `i` (writing through the
append-mode writer of that file). -/
def tAppend (i : Nat) (tail : List Command) (p : Nat × List Command) : Nat × List Command :=
  if p.1 = i then (p.1, p.2 ++ tail) else p

def assocAppendAt (l : List (Nat × List Command)) (i : Nat) (c : Command) :
    List (Nat × List Command) :=
  l.map (tAppend i [c])

/-- Insertion into the reader map (modelled as id-sorted association
list; the map itself is unordered in the source). -/
def insertSorted (p : Nat × List Command) : List (Nat × List Command) → List (Nat × List Command)
  | [] => [p]
  | q :: rest => if p.1 ≤ q.1 then p :: q :: rest else q :: insertSorted p rest

/-- `log_ids.sort_unstable()` of `open`, modelled on the id-keyed files. -/
def sortById (l : List (Nat × List Command)) : List (Nat × List Command) :=
  l.foldr insertSorted []

def idsOf (l : List (Nat × List Command)) : List Nat := l.map Prod.fst

/-- `BTreeMap::get`. -/
def dirLookup (d : Dir) (k : String) : Option ValueEntry :=
  match d with
  | [] => none
  | p :: rest => if p.1 = k then some p.2 else dirLookup rest k

/-- `BTreeMap::insert` on the key-sorted association list. -/
def dirInsert (d : Dir) (k : String) (e : ValueEntry) : Dir :=
  match d with
  | [] => [(k, e)]
  | p :: rest =>
    if k < p.1 then (k, e) :: p :: rest
    else if k = p.1 then (k, e) :: rest
    else p :: dirInsert rest k e

/-- `BTreeMap::remove`. -/
def dirRemove (d : Dir) (k : String) : Dir := d.filter fun p => p.1 ≠ k

/-- Effect of replaying one decoded record on the key directory
(the match inside `load`). -/
def applyCmd (log_id log_offset : Nat) (c : Command) (d : Dir) : Dir :=
  match c with
  | .Set key _ => dirInsert d key ⟨log_id, log_offset⟩
  | .Remove key => dirRemove d key

/-- `load`: replay one segment file into the key directory, returning
the updated directory and the accumulated byte size of the records. -/
def load (log_id : Nat) : List Command → Nat → Dir → Dir × Nat
  | [], _, d => (d, 0)
  | c :: rest, off, d =>
    let r := load log_id rest (off + 1) (applyCmd log_id off c d)
    (r.1, encSize c + r.2)

/-- The replay loop of `open`: load each file in list order. -/
def loadAll : List (Nat × List Command) → Dir → Dir × Nat
  | [], d => (d, 0)
  | (i, f) :: rest, d =>
    let r := load i f 0 d
    let r2 := loadAll rest r.1
    (r2.1, r.2 + r2.2)

/-- `KvStore::open`, after the directory scan: takes the id-keyed
existing log files, replays them in ascending id order, and creates a
fresh active segment with id `max(existing) + 1` (`last().unwrap_or(&0) + 1`
on the sorted id list). -/
def openStore (files : List (Nat × List Command)) : KvStore :=
  let sorted := sortById files
  let loaded := loadAll sorted []
  let log_id := ((sorted.map Prod.fst).getLast?.getD 0) + 1
  { log_readers := insertSorted (log_id, []) sorted
    log_id := log_id
    key_dir := loaded.1
    size := loaded.2 }

/-- `KvStore::get`. -/
def KvStore.get (s : KvStore) (key : String) : GetRes :=
  match dirLookup s.key_dir key with
  | none => .ok none
  | some e =>
    match assocLookup s.log_readers e.log_id with
    | none => .panicked "Could not find log reader!"
    | some f =>
      match f[e.log_offset]? with
      | none => .ok none
      | some (Command.Set _ val) => .ok (some val)
      | some (Command.Remove _) => .err .UnexpectedCommandType

/-- The loop of `compact` over `key_dir.iter_mut()`: returns the
rewritten directory entries, the updated reader map and the byte
counter, or `none` when the `expect` on a missing reader panics. -/
def compactLoop (tId : Nat) : Dir → List (Nat × List Command) → Nat →
    Option (Dir × List (Nat × List Command) × Nat)
  | [], rds, size => some ([], rds, size)
  | (key, e) :: rest, rds, size =>
    match assocLookup rds e.log_id with
    | none => none
    | some f =>
      match f[e.log_offset]? with
      | some (Command.Set _ val) =>
        let off := ((assocLookup rds tId).getD []).length
        match compactLoop tId rest (assocAppendAt rds tId (Command.Set key val))
            (size + encSize (Command.Set key val)) with
        | none => none
        | some r => some ((key, ⟨tId, off⟩) :: r.1, r.2)
      | some (Command.Remove _) =>
        match compactLoop tId rest rds size with
        | none => none
        | some r => some ((key, e) :: r.1, r.2)
      | none =>
        match compactLoop tId rest rds size with
        | none => none
        | some r => some ((key, e) :: r.1, r.2)

/-- `KvStore::compact`: reserve target id `log_id + 1` and new active id
`log_id + 2`, create both segments, reset the byte counter, rewrite the
live records, then delete every segment with id below the target. -/
def KvStore.compact (s : KvStore) : OpRes :=
  let next_log_id := s.log_id + 1
  let new_log_id := s.log_id + 2
  let rds := insertSorted (new_log_id, []) (insertSorted (next_log_id, []) s.log_readers)
  match compactLoop next_log_id s.key_dir rds 0 with
  | none => .panicked "Could not find log reader!"
  | some r =>
    .ok { log_readers := r.2.1.filter fun p => decide (¬ p.1 < next_log_id)
          log_id := new_log_id
          key_dir := r.1
          size := r.2.2 }

/-- `KvStore::set` before the compaction check: append the record,
update the byte counter, insert the directory entry. -/
def KvStore.setRaw (s : KvStore) (key val : String) : KvStore :=
  let cmd := Command.Set key val
  let log_offset := ((assocLookup s.log_readers s.log_id).getD []).length
  { s with log_readers := assocAppendAt s.log_readers s.log_id cmd
           size := s.size + encSize cmd
           key_dir := dirInsert s.key_dir key ⟨s.log_id, log_offset⟩ }

/-- `KvStore::set`. -/
def KvStore.set (s : KvStore) (key val : String) : OpRes :=
  let s1 := s.setRaw key val
  if s1.size > COMPACTION_THRESHOLD then s1.compact else .ok s1

/-- `KvStore::remove` before the compaction check. -/
def KvStore.removeRaw (s : KvStore) (key : String) : KvStore :=
  let cmd := Command.Remove key
  { s with log_readers := assocAppendAt s.log_readers s.log_id cmd
           size := s.size + encSize cmd
           key_dir := dirRemove s.key_dir key }

/-- `KvStore::remove`. -/
def KvStore.remove (s : KvStore) (key : String) : OpRes :=
  if (dirLookup s.key_dir key).isSome then
    let s1 := s.removeRaw key
    if s1.size > COMPACTION_THRESHOLD then s1.compact else .ok s1
  else .err .KeyNotFound s

/-- Rust `Path::extension` on a plain file name: the part after the
final dot, `none` when there is no dot or the only dot is the leading
character. -/
def afterLastDot : List Char → Option (List Char)
  | [] => none
  | c :: rest =>
    match afterLastDot rest with
    | some s => some s
    | none => if c = '.' then some rest else none

def rustExtension (name : String) : Option String :=
  match name.data with
  | [] => none
  | c0 :: rest =>
    if c0 = '.' then (afterLastDot rest).map List.asString
    else (afterLastDot (c0 :: rest)).map List.asString

/-- `str::trim_end_matches(".log")` via the reversed character list. -/
def stripLogRev : List Char → List Char
  | a :: b :: c :: d :: rest =>
    if a = 'g' ∧ b = 'o' ∧ c = 'l' ∧ d = '.' then stripLogRev rest
    else a :: b :: c :: d :: rest
  | l => l

def trimEndMatchesLog (s : String) : String :=
  (stripLogRev s.data.reverse).reverse.asString

def digitsVal (l : List Char) : Nat :=
  l.foldl (fun acc c => acc * 10 + (c.toNat - '0'.toNat)) 0

/-- `str::parse::<u64>`: optional leading plus sign, then one or more
ASCII digits, value within the `u64` range. -/
def parseU64 (s : String) : Option Nat :=
  let chars := s.data
  let digits := if chars.head? = some '+' then chars.tail else chars
  if digits ≠ [] ∧ (∀ c ∈ digits, c.isDigit = true) ∧ digitsVal digits < 2 ^ 64 then
    some (digitsVal digits)
  else none

/-- The per-file id derivation in `open`: keep files whose extension is
`log`, strip every trailing `.log` from the file name, parse the rest
as a `u64`.  The segment then replayed is the file named `<id>.log`. -/
def parseLogFileName (name : String) : Option Nat :=
  if rustExtension name = some "log" then parseU64 (trimEndMatchesLog name) else none

/-- The directory entries written by the compaction loop into the
target segment: key `k` of the `j`-th processed live record points at
`(tId, start + j)`. -/
def newEntries (tId start : Nat) : List (String × String) → Dir
  | [] => []
  | (k, _) :: rest => (k, ⟨tId, start⟩) :: newEntries tId (start + 1) rest

/-- The records the compaction loop appends to the target segment. -/
def setsOf (ws : List (String × String)) : List Command :=
  ws.map fun p => Command.Set p.1 p.2

/-- Well-formedness of a store, established by `open` and preserved by
every successful operation. -/
structure StoreInv (s : KvStore) : Prop where
  readersSorted : (idsOf s.log_readers).Pairwise (· < ·)
  idsLe : ∀ i ∈ idsOf s.log_readers, i ≤ s.log_id
  activeMem : ∃ f, assocLookup s.log_readers s.log_id = some f
  dirSorted : (s.key_dir.map Prod.fst).Pairwise (· < ·)
  pointsSet : ∀ p ∈ s.key_dir, ∃ f v, assocLookup s.log_readers p.2.log_id = some f ∧
    f[p.2.log_offset]? = some (Command.Set p.1 v)
  replayEq : (loadAll s.log_readers []).1 = s.key_dir

/-- Stores reachable by opening a directory (distinct file names give
distinct ids) and performing successful operations. -/
inductive Reachable : KvStore → Prop where
  | opened (files : List (Nat × List Command)) (h : (idsOf files).Nodup) :
      Reachable (openStore files)
  | setStep {s s' : KvStore} {k v : String} :
      Reachable s → s.set k v = .ok s' → Reachable s'
  | removeStep {s s' : KvStore} {k : String} :
      Reachable s → s.remove k = .ok s' → Reachable s'

/-! ### Association list lemmas -/

theorem assocLookup_append_left {l t : List (Nat × List Command)} {i : Nat} {f : List Command}
    (h : assocLookup l i = some f) : assocLookup (l ++ t) i = some f := by
  induction l with
  | nil => simp [assocLookup] at h
  | cons p rest ih =>
    by_cases hp : p.1 = i
    · simp [assocLookup, hp] at h ⊢; exact h
    · simp only [assocLookup, List.cons_append, if_neg hp] at h ⊢
      exact ih h

theorem assocLookup_append_right {l : List (Nat × List Command)} {i : Nat}
    (h : ∀ p ∈ l, p.1 ≠ i) (t : List (Nat × List Command)) :
    assocLookup (l ++ t) i = assocLookup t i := by
  induction l with
  | nil => simp
  | cons p rest ih =>
    have hp : p.1 ≠ i := h p (by simp)
    simp only [assocLookup, List.cons_append, if_neg hp]
    exact ih fun q hq => h q (by simp [hq])

theorem assocLookup_eq_none_iff {l : List (Nat × List Command)} {i : Nat} :
    assocLookup l i = none ↔ ∀ p ∈ l, p.1 ≠ i := by
  induction l with
  | nil => simp [assocLookup]
  | cons p rest ih =>
    by_cases hp : p.1 = i
    · simp [assocLookup, hp]
    · simp [assocLookup, hp, ih]

theorem assocLookup_mem_nodup {l : List (Nat × List Command)} {p : Nat × List Command}
    (hn : (idsOf l).Nodup) (hm : p ∈ l) : assocLookup l p.1 = some p.2 := by
  induction l with
  | nil => simp at hm
  | cons q rest ih =>
    rcases List.mem_cons.mp hm with rfl | hm'
    · simp [assocLookup]
    · have hq : q.1 ≠ p.1 := by
        intro he
        have : q.1 ∈ idsOf rest := he ▸ List.mem_map_of_mem Prod.fst hm'
        exact (List.nodup_cons.mp hn).1 this
      simp only [assocLookup, if_neg hq]
      exact ih (List.nodup_cons.mp hn).2 hm'

theorem tAppend_fst (i : Nat) (tail : List Command) (p : Nat × List Command) :
    (tAppend i tail p).1 = p.1 := by
  unfold tAppend; split <;> rfl

theorem idsOf_map_tAppend (l : List (Nat × List Command)) (i : Nat) (tail : List Command) :
    idsOf (l.map (tAppend i tail)) = idsOf l := by
  unfold idsOf
  rw [List.map_map]
  exact List.map_congr_left fun p _ => tAppend_fst i tail p

theorem assocLookup_map_tAppend_self (l : List (Nat × List Command)) (i : Nat)
    (tail : List Command) :
    assocLookup (l.map (tAppend i tail)) i = (assocLookup l i).map (· ++ tail) := by
  induction l with
  | nil => rfl
  | cons p rest ih =>
    by_cases hp : p.1 = i
    · simp [assocLookup, tAppend, hp]
    · simp only [List.map_cons, assocLookup, tAppend, if_neg hp]
      exact ih

theorem assocLookup_map_tAppend_ne (l : List (Nat × List Command)) {i j : Nat}
    (tail : List Command) (h : j ≠ i) :
    assocLookup (l.map (tAppend i tail)) j = assocLookup l j := by
  induction l with
  | nil => rfl
  | cons p rest ih =>
    by_cases hp : p.1 = i
    · have hne : p.1 ≠ j := fun he => h (by rw [← he, hp])
      simp only [List.map_cons, assocLookup, tAppend, if_pos hp, if_neg hne]
      simpa [hne] using ih
    · simp only [List.map_cons, assocLookup, tAppend, if_neg hp]
      by_cases hj : p.1 = j <;> simp [hj, ih]

theorem tAppend_comp (i : Nat) (t1 t2 : List Command) (p : Nat × List Command) :
    tAppend i t2 (tAppend i t1 p) = tAppend i (t1 ++ t2) p := by
  unfold tAppend
  by_cases hp : p.1 = i <;> simp [hp, List.append_assoc]

/-! ### Sorted insertion lemmas -/

theorem insertSorted_perm (p : Nat × List Command) (l : List (Nat × List Command)) :
    (insertSorted p l).Perm (p :: l) := by
  induction l with
  | nil => exact List.Perm.refl _
  | cons q rest ih =>
    by_cases hle : p.1 ≤ q.1
    · simp [insertSorted, hle]
    · simp only [insertSorted, if_neg hle]
      exact (ih.cons q).trans (List.Perm.swap p q rest)

theorem assocLookup_insertSorted_self (p : Nat × List Command)
    (l : List (Nat × List Command)) :
    assocLookup (insertSorted p l) p.1 = some p.2 := by
  induction l with
  | nil => simp [insertSorted, assocLookup]
  | cons q rest ih =>
    by_cases hle : p.1 ≤ q.1
    · simp [insertSorted, hle, assocLookup]
    · have hne : q.1 ≠ p.1 := fun h => hle (le_of_eq h.symm)
      simp only [insertSorted, if_neg hle, assocLookup, if_neg hne]
      exact ih

theorem assocLookup_insertSorted_ne (p : Nat × List Command)
    (l : List (Nat × List Command)) {j : Nat} (h : j ≠ p.1) :
    assocLookup (insertSorted p l) j = assocLookup l j := by
  have hps : ¬ p.1 = j := fun he => h he.symm
  induction l with
  | nil => simp [insertSorted, assocLookup, hps]
  | cons q rest ih =>
    by_cases hle : p.1 ≤ q.1
    · simp only [insertSorted, if_pos hle, assocLookup, if_neg hps]
    · simp only [insertSorted, if_neg hle, assocLookup]
      by_cases hq : q.1 = j <;> simp [hq, ih]

theorem insertSorted_append_end {p : Nat × List Command} {l : List (Nat × List Command)}
    (h : ∀ q ∈ l, ¬ p.1 ≤ q.1) : insertSorted p l = l ++ [p] := by
  induction l with
  | nil => rfl
  | cons q rest ih =>
    simp only [insertSorted, if_neg (h q (by simp)), List.cons_append]
    rw [ih fun r hr => h r (by simp [hr])]

theorem sortById_perm (l : List (Nat × List Command)) : (sortById l).Perm l := by
  induction l with
  | nil => exact List.Perm.refl _
  | cons p rest ih =>
    exact (insertSorted_perm p (sortById rest)).trans (ih.cons p)

theorem mem_idsOf_insertSorted {p : Nat × List Command} {l : List (Nat × List Command)}
    {a : Nat} (h : a ∈ idsOf (insertSorted p l)) : a = p.1 ∨ a ∈ idsOf l := by
  have := (insertSorted_perm p l).map Prod.fst
  have ha : a ∈ p.1 :: idsOf l := this.mem_iff.mp h
  simpa [idsOf] using ha

theorem insertSorted_sorted_le {l : List (Nat × List Command)}
    (h : (idsOf l).Pairwise (· ≤ ·)) (p : Nat × List Command) :
    (idsOf (insertSorted p l)).Pairwise (· ≤ ·) := by
  induction l with
  | nil => simp [insertSorted, idsOf]
  | cons q rest ih =>
    rw [idsOf, List.map_cons, List.pairwise_cons] at h
    by_cases hle : p.1 ≤ q.1
    · simp only [insertSorted, if_pos hle, idsOf, List.map_cons, List.pairwise_cons]
      refine ⟨?_, ?_⟩
      · intro a ha
        rcases List.mem_cons.mp ha with rfl | ha'
        · exact hle
        · exact le_trans hle (h.1 a ha')
      · exact h
    · have hq : q.1 ≤ p.1 := le_of_not_le hle
      simp only [insertSorted, if_neg hle, idsOf, List.map_cons, List.pairwise_cons]
      refine ⟨?_, ih h.2⟩
      intro a ha
      rcases mem_idsOf_insertSorted ha with rfl | ha'
      · exact hq
      · exact h.1 a ha'

theorem sortById_sorted_le (l : List (Nat × List Command)) :
    (idsOf (sortById l)).Pairwise (· ≤ ·) := by
  induction l with
  | nil => simp [sortById, idsOf]
  | cons p rest ih => exact insertSorted_sorted_le ih p

theorem sorted_lt_of_le_nodup {l : List Nat} (h1 : l.Pairwise (· ≤ ·)) (h2 : l.Nodup) :
    l.Pairwise (· < ·) :=
  (h1.and h2).imp fun hab => lt_of_le_of_ne hab.1 hab.2

theorem insertSorted_eq_cons {p : Nat × List Command} {l : List (Nat × List Command)}
    (h : ∀ q ∈ l, p.1 ≤ q.1) : insertSorted p l = p :: l := by
  cases l with
  | nil => rfl
  | cons q rest => simp [insertSorted, h q (by simp)]

theorem sortById_eq_self {l : List (Nat × List Command)}
    (h : (idsOf l).Pairwise (· < ·)) : sortById l = l := by
  induction l with
  | nil => rfl
  | cons p rest ih =>
    rw [idsOf, List.map_cons, List.pairwise_cons] at h
    have : sortById (p :: rest) = insertSorted p (sortById rest) := rfl
    rw [this, ih h.2]
    exact insertSorted_eq_cons fun q hq =>
      le_of_lt (h.1 q.1 (List.mem_map_of_mem Prod.fst hq))

/-! ### Fold-max lemmas (for the `max(existing ids) + 1` computation) -/

theorem le_foldr_max {l : List Nat} {a : Nat} (h : a ∈ l) : a ≤ l.foldr max 0 := by
  induction l with
  | nil => simp at h
  | cons b rest ih =>
    rcases List.mem_cons.mp h with rfl | h'
    · exact le_max_left _ _
    · exact le_trans (ih h') (le_max_right _ _)

theorem foldr_max_le {l : List Nat} {b : Nat} (h : ∀ a ∈ l, a ≤ b) : l.foldr max 0 ≤ b := by
  induction l with
  | nil => exact Nat.zero_le b
  | cons a rest ih =>
    exact max_le (h a (by simp)) (ih fun x hx => h x (by simp [hx]))

theorem foldr_max_perm {l l' : List Nat} (h : l.Perm l') :
    l.foldr max 0 = l'.foldr max 0 :=
  le_antisymm (foldr_max_le fun _ ha => le_foldr_max (h.mem_iff.mp ha))
    (foldr_max_le fun _ ha => le_foldr_max (h.mem_iff.mpr ha))

theorem sorted_getLast_eq_foldr_max {l : List Nat} (h : l.Pairwise (· ≤ ·)) :
    l.getLast?.getD 0 = l.foldr max 0 := by
  induction l with
  | nil => rfl
  | cons a rest ih =>
    cases rest with
    | nil => simp
    | cons b t =>
      rw [List.pairwise_cons] at h
      have hab : a ≤ b := h.1 b (by simp)
      have hb : b ≤ (b :: t).foldr max 0 := le_foldr_max (by simp)
      have : (a :: b :: t).getLast?.getD 0 = (b :: t).getLast?.getD 0 := by
        simp [List.getLast?]
      rw [this, ih h.2]
      exact (max_eq_right (le_trans hab hb)).symm

/-! ### Key directory lemmas -/

theorem dirLookup_eq_none_iff {d : Dir} {k : String} :
    dirLookup d k = none ↔ ∀ p ∈ d, p.1 ≠ k := by
  induction d with
  | nil => simp [dirLookup]
  | cons p rest ih =>
    by_cases hp : p.1 = k
    · simp [dirLookup, hp]
    · simp [dirLookup, hp, ih]

theorem dirLookup_dirInsert_self (d : Dir) (k : String) (e : ValueEntry) :
    dirLookup (dirInsert d k e) k = some e := by
  induction d with
  | nil => simp [dirInsert, dirLookup]
  | cons p rest ih =>
    rcases lt_trichotomy k p.1 with h | h | h
    · simp [dirInsert, h, dirLookup]
    · simp [dirInsert, h.symm, dirLookup, lt_irrefl, h ▸ lt_irrefl k]
    · have h1 : ¬ k < p.1 := not_lt_of_gt h
      have h2 : ¬ k = p.1 := ne_of_gt h
      have h3 : ¬ p.1 = k := fun he => h2 he.symm
      simp [dirInsert, h1, h2, dirLookup, h3, ih]

theorem dirLookup_dirInsert_ne (d : Dir) {k k' : String} (e : ValueEntry) (h : k' ≠ k) :
    dirLookup (dirInsert d k e) k' = dirLookup d k' := by
  have hk : ¬ k = k' := fun he => h he.symm
  induction d with
  | nil => simp only [dirInsert, dirLookup, if_neg hk]
  | cons p rest ih =>
    rcases lt_trichotomy k p.1 with hc | hc | hc
    · rw [show dirInsert (p :: rest) k e = (k, e) :: p :: rest from by
        rw [dirInsert, if_pos hc]]
      simp only [dirLookup, if_neg hk]
    · have hnl : ¬ k < p.1 := by rw [hc]; exact lt_irrefl p.1
      have hp : ¬ p.1 = k' := fun he => hk (by rw [hc, he])
      rw [show dirInsert (p :: rest) k e = (k, e) :: rest from by
        rw [dirInsert, if_neg hnl, if_pos hc]]
      simp only [dirLookup, if_neg hk, if_neg hp]
    · have h1 : ¬ k < p.1 := not_lt_of_gt hc
      have h2 : ¬ k = p.1 := ne_of_gt hc
      rw [show dirInsert (p :: rest) k e = p :: dirInsert rest k e from by
        rw [dirInsert, if_neg h1, if_neg h2]]
      by_cases hp : p.1 = k'
      · simp only [dirLookup, if_pos hp]
      · simp only [dirLookup, if_neg hp, ih]

theorem mem_dirInsert {d : Dir} {k : String} {e : ValueEntry} {p : String × ValueEntry}
    (h : p ∈ dirInsert d k e) : p = (k, e) ∨ p ∈ d := by
  induction d with
  | nil => simpa [dirInsert] using h
  | cons q rest ih =>
    rcases lt_trichotomy k q.1 with hc | hc | hc
    · rw [show dirInsert (q :: rest) k e = (k, e) :: q :: rest from by
        rw [dirInsert, if_pos hc]] at h
      rcases List.mem_cons.mp h with rfl | h'
      · simp
      · simp [h']
    · have hnl : ¬ k < q.1 := by rw [hc]; exact lt_irrefl q.1
      rw [show dirInsert (q :: rest) k e = (k, e) :: rest from by
        rw [dirInsert, if_neg hnl, if_pos hc]] at h
      rcases List.mem_cons.mp h with rfl | h'
      · simp
      · simp [h']
    · rw [show dirInsert (q :: rest) k e = q :: dirInsert rest k e from by
        rw [dirInsert, if_neg (not_lt_of_gt hc), if_neg (ne_of_gt hc)]] at h
      rcases List.mem_cons.mp h with rfl | h'
      · simp
      · rcases ih h' with h'' | h'' <;> simp [h'']

theorem keys_dirInsert_subset {d : Dir} {k a : String} {e : ValueEntry}
    (h : a ∈ (dirInsert d k e).map Prod.fst) : a = k ∨ a ∈ d.map Prod.fst := by
  rcases List.mem_map.mp h with ⟨p, hp, rfl⟩
  rcases mem_dirInsert hp with rfl | hp'
  · simp
  · exact Or.inr (List.mem_map_of_mem Prod.fst hp')

theorem dirInsert_sorted {d : Dir} (h : (d.map Prod.fst).Pairwise (· < ·))
    (k : String) (e : ValueEntry) :
    ((dirInsert d k e).map Prod.fst).Pairwise (· < ·) := by
  induction d with
  | nil => simp [dirInsert]
  | cons p rest ih =>
    rw [List.map_cons, List.pairwise_cons] at h
    rcases lt_trichotomy k p.1 with hc | hc | hc
    · rw [show dirInsert (p :: rest) k e = (k, e) :: p :: rest from by
        rw [dirInsert, if_pos hc]]
      simp only [List.map_cons, List.pairwise_cons]
      refine ⟨?_, ?_, ?_⟩
      · intro a ha
        rcases List.mem_cons.mp ha with rfl | ha'
        · exact hc
        · exact lt_trans hc (h.1 a ha')
      · exact h.1
      · exact h.2
    · have hnl : ¬ k < p.1 := by rw [hc]; exact lt_irrefl p.1
      rw [show dirInsert (p :: rest) k e = (k, e) :: rest from by
        rw [dirInsert, if_neg hnl, if_pos hc]]
      simp only [List.map_cons, List.pairwise_cons]
      exact ⟨fun a ha => by rw [hc]; exact h.1 a ha, h.2⟩
    · rw [show dirInsert (p :: rest) k e = p :: dirInsert rest k e from by
        rw [dirInsert, if_neg (not_lt_of_gt hc), if_neg (ne_of_gt hc)]]
      simp only [List.map_cons, List.pairwise_cons]
      refine ⟨?_, ih h.2⟩
      intro a ha
      rcases keys_dirInsert_subset ha with rfl | ha'
      · exact hc
      · exact h.1 a ha'

theorem dirInsert_append_big {d : Dir} {k : String} (h : ∀ p ∈ d, p.1 < k) (e : ValueEntry) :
    dirInsert d k e = d ++ [(k, e)] := by
  induction d with
  | nil => rfl
  | cons p rest ih =>
    have hp : p.1 < k := h p (by simp)
    simp only [dirInsert, if_neg (not_lt_of_gt hp), if_neg (ne_of_gt hp), List.cons_append]
    rw [ih fun q hq => h q (by simp [hq])]

theorem mem_dirRemove {d : Dir} {k : String} {p : String × ValueEntry}
    (h : p ∈ dirRemove d k) : p ∈ d :=
  List.mem_of_mem_filter h

theorem dirLookup_dirRemove_self (d : Dir) (k : String) :
    dirLookup (dirRemove d k) k = none := by
  rw [dirLookup_eq_none_iff]
  intro p hp
  have := List.of_mem_filter hp
  simpa using this

theorem dirLookup_dirRemove_ne (d : Dir) {k k' : String} (h : k' ≠ k) :
    dirLookup (dirRemove d k) k' = dirLookup d k' := by
  induction d with
  | nil => rfl
  | cons p rest ih =>
    by_cases hp : p.1 = k
    · have hp' : ¬ p.1 = k' := fun he => h (by rw [← he, hp])
      have hd : dirRemove (p :: rest) k = dirRemove rest k := by
        simp [dirRemove, List.filter_cons, hp]
      rw [hd, ih]
      simp only [dirLookup, if_neg hp']
    · have hd : dirRemove (p :: rest) k = p :: dirRemove rest k := by
        simp [dirRemove, List.filter_cons, hp]
      rw [hd]
      by_cases hk : p.1 = k'
      · simp only [dirLookup, if_pos hk]
      · simp only [dirLookup, if_neg hk, ih]

theorem dirRemove_sorted {d : Dir} (h : (d.map Prod.fst).Pairwise (· < ·)) (k : String) :
    ((dirRemove d k).map Prod.fst).Pairwise (· < ·) :=
  h.sublist ((List.filter_sublist d).map Prod.fst)

theorem applyCmd_sorted {d : Dir} (h : (d.map Prod.fst).Pairwise (· < ·))
    (i off : Nat) (c : Command) :
    ((applyCmd i off c d).map Prod.fst).Pairwise (· < ·) := by
  cases c with
  | Set key val => exact dirInsert_sorted h key ⟨i, off⟩
  | Remove key => exact dirRemove_sorted h key

theorem dirLookup_none_of_keys_eq {d d' : Dir} {k : String}
    (hk : d.map Prod.fst = d'.map Prod.fst) (h : dirLookup d k = none) :
    dirLookup d' k = none := by
  rw [dirLookup_eq_none_iff] at h ⊢
  intro p hp
  have : p.1 ∈ d'.map Prod.fst := List.mem_map_of_mem Prod.fst hp
  rw [← hk] at this
  rcases List.mem_map.mp this with ⟨q, hq, he⟩
  exact he ▸ h q hq

/-! ### Replay (`load`) lemmas -/

theorem load_fst_append_one (i : Nat) (f : List Command) (c : Command) :
    ∀ (off : Nat) (d : Dir),
    (load i (f ++ [c]) off d).1 = applyCmd i (off + f.length) c (load i f off d).1 := by
  induction f with
  | nil => intro off d; simp [load]
  | cons c0 rest ih =>
    intro off d
    simp only [List.cons_append, load, List.append_eq]
    rw [ih (off + 1) (applyCmd i off c0 d)]
    have he : off + 1 + rest.length = off + (c0 :: rest).length := by
      simp [List.length_cons]; omega
    rw [he]

theorem loadAll_fst_append (l1 l2 : List (Nat × List Command)) (d : Dir) :
    (loadAll (l1 ++ l2) d).1 = (loadAll l2 (loadAll l1 d).1).1 := by
  induction l1 generalizing d with
  | nil => simp [loadAll]
  | cons p rest ih =>
    cases p with
    | mk i f =>
      simp only [List.cons_append, loadAll]
      exact ih (load i f 0 d).1

theorem load_fst_sorted (i : Nat) (f : List Command) :
    ∀ (off : Nat) (d : Dir), (d.map Prod.fst).Pairwise (· < ·) →
    (((load i f off d).1).map Prod.fst).Pairwise (· < ·) := by
  induction f with
  | nil => intro off d h; exact h
  | cons c rest ih =>
    intro off d h
    simp only [load]
    exact ih (off + 1) (applyCmd i off c d) (applyCmd_sorted h i off c)

theorem loadAll_fst_sorted (files : List (Nat × List Command)) :
    ∀ (d : Dir), (d.map Prod.fst).Pairwise (· < ·) →
    (((loadAll files d).1).map Prod.fst).Pairwise (· < ·) := by
  induction files with
  | nil => intro d h; exact h
  | cons p rest ih =>
    intro d h
    cases p with
    | mk i f =>
      simp only [loadAll]
      exact ih (load i f 0 d).1 (load_fst_sorted i f 0 d h)

theorem load_fst_points (i : Nat) (f : List Command) :
    ∀ (off : Nat) (d : Dir) (P : String × ValueEntry → Prop),
    (∀ p ∈ d, P p) →
    ∀ p ∈ (load i f off d).1,
      P p ∨ ∃ j v, p.2 = ValueEntry.mk i (off + j) ∧ f[j]? = some (Command.Set p.1 v) := by
  induction f with
  | nil => intro off d P hd p hp; exact Or.inl (hd p hp)
  | cons c rest ih =>
    intro off d P hd p hp
    simp only [load] at hp
    have hstep : ∀ q ∈ applyCmd i off c d,
        P q ∨ ∃ v, c = Command.Set q.1 v ∧ q.2 = ValueEntry.mk i off := by
      intro q hq
      cases c with
      | Set key val =>
        rcases mem_dirInsert hq with rfl | hq'
        · exact Or.inr ⟨val, rfl, rfl⟩
        · exact Or.inl (hd q hq')
      | Remove key => exact Or.inl (hd q (mem_dirRemove hq))
    have := ih (off + 1) (applyCmd i off c d)
      (fun q => P q ∨ ∃ v, c = Command.Set q.1 v ∧ q.2 = ValueEntry.mk i off)
      hstep p hp
    rcases this with (hP | ⟨v, hc, he⟩) | ⟨j, v, he, hj⟩
    · exact Or.inl hP
    · refine Or.inr ⟨0, v, ?_, ?_⟩
      · simpa using he
      · simp [hc]
    · refine Or.inr ⟨j + 1, v, ?_, ?_⟩
      · rw [he]
        have : off + 1 + j = off + (j + 1) := by omega
        rw [this]
      · simpa using hj

theorem loadAll_fst_points (files : List (Nat × List Command)) :
    ∀ (d : Dir) (P : String × ValueEntry → Prop),
    (∀ p ∈ d, P p) →
    ∀ p ∈ (loadAll files d).1,
      P p ∨ ∃ pr ∈ files, ∃ j v,
        p.2 = ValueEntry.mk pr.1 j ∧ pr.2[j]? = some (Command.Set p.1 v) := by
  induction files with
  | nil => intro d P hd p hp; exact Or.inl (hd p hp)
  | cons pr rest ih =>
    intro d P hd p hp
    cases pr with
    | mk i f =>
      simp only [loadAll] at hp
      have hload : ∀ q ∈ (load i f 0 d).1,
          P q ∨ ∃ j v, q.2 = ValueEntry.mk i j ∧ f[j]? = some (Command.Set q.1 v) := by
        intro q hq
        rcases load_fst_points i f 0 d P hd q hq with hP | ⟨j, v, he, hj⟩
        · exact Or.inl hP
        · exact Or.inr ⟨j, v, by simpa using he, hj⟩
      have := ih (load i f 0 d).1
        (fun q => P q ∨ ∃ j v, q.2 = ValueEntry.mk i j ∧ f[j]? = some (Command.Set q.1 v))
        hload p hp
      rcases this with (hP | ⟨j, v, he, hj⟩) | ⟨pr', hm, j, v, he, hj⟩
      · exact Or.inl hP
      · exact Or.inr ⟨(i, f), by simp, j, v, he, hj⟩
      · exact Or.inr ⟨pr', by simp [hm], j, v, he, hj⟩

theorem load_fst_setsOf (tId : Nat) (ws : List (String × String)) :
    ∀ (start : Nat) (d : Dir),
    (ws.map Prod.fst).Pairwise (· < ·) →
    (∀ p ∈ d, ∀ w ∈ ws, p.1 < w.1) →
    (load tId (setsOf ws) start d).1 = d ++ newEntries tId start ws := by
  induction ws with
  | nil => intro start d _ _; simp [setsOf, load, newEntries]
  | cons w rest ih =>
    intro start d hs hd
    cases w with
    | mk k v =>
      rw [List.map_cons, List.pairwise_cons] at hs
      simp only [setsOf, List.map_cons, load, applyCmd, newEntries]
      rw [dirInsert_append_big (fun p hp => hd p hp (k, v) (by simp)) ⟨tId, start⟩]
      have hd' : ∀ p ∈ d ++ [(k, ValueEntry.mk tId start)], ∀ w' ∈ rest, p.1 < w'.1 := by
        intro p hp w' hw'
        rcases List.mem_append.mp hp with hp' | hp'
        · exact hd p hp' w' (by simp [hw'])
        · have : p = (k, ValueEntry.mk tId start) := by simpa using hp'
          rw [this]
          exact hs.1 w'.1 (List.mem_map_of_mem Prod.fst hw')
      have := ih (start + 1) (d ++ [(k, ValueEntry.mk tId start)]) hs.2 hd'
      rw [show setsOf rest = List.map (fun p => Command.Set p.1 p.2) rest from rfl] at this
      rw [this, List.append_assoc]
      rfl

theorem readers_last_decomp {l : List (Nat × List Command)} {a : Nat} {f : List Command}
    (hs : (idsOf l).Pairwise (· < ·)) (hle : ∀ i ∈ idsOf l, i ≤ a)
    (hl : assocLookup l a = some f) :
    ∃ l0, l = l0 ++ [(a, f)] ∧ ∀ p ∈ l0, p.1 < a := by
  induction l with
  | nil => simp [assocLookup] at hl
  | cons p rest ih =>
    rw [idsOf, List.map_cons, List.pairwise_cons] at hs
    by_cases hp : p.1 = a
    · have hrest : rest = [] := by
        cases rest with
        | nil => rfl
        | cons q t =>
          exfalso
          have h1 : p.1 < q.1 := hs.1 q.1 (by simp [idsOf])
          have h2 : q.1 ≤ a := hle q.1 (by simp [idsOf])
          omega
      subst hrest
      simp only [assocLookup, if_pos hp, Option.some_inj] at hl
      refine ⟨[], ?_, by simp⟩
      simp only [List.nil_append, List.cons_eq_cons]
      exact ⟨by rw [← hp, ← hl], trivial⟩
    · rw [show assocLookup (p :: rest) a = assocLookup rest a from by
        simp [assocLookup, hp]] at hl
      obtain ⟨l0, he, hlt⟩ := ih hs.2 (fun i hi => hle i (by simp [idsOf] at hi ⊢; exact Or.inr hi)) hl
      refine ⟨p :: l0, by rw [he]; rfl, ?_⟩
      intro q hq
      rcases List.mem_cons.mp hq with rfl | hq'
      · exact lt_of_le_of_ne (hle q.1 (by simp [idsOf])) hp
      · exact hlt q hq'

/-! ### Compaction loop lemmas -/

theorem tAppend_nil (i : Nat) (p : Nat × List Command) : tAppend i [] p = p := by
  unfold tAppend
  split
  · simp
  · rfl

theorem map_tAppend_nil (i : Nat) (l : List (Nat × List Command)) :
    l.map (tAppend i []) = l := by
  induction l with
  | nil => rfl
  | cons p rest ih => rw [List.map_cons, tAppend_nil, ih]

theorem forall₂_transfer {R S : (String × ValueEntry) → (String × String) → Prop}
    {es : Dir} {ws : List (String × String)} (h : List.Forall₂ R es ws)
    (himp : ∀ p ∈ es, ∀ w, R p w → S p w) : List.Forall₂ S es ws := by
  induction h with
  | nil => exact List.Forall₂.nil
  | cons hpw _ ih =>
    refine List.Forall₂.cons (himp _ (by simp) _ hpw) (ih ?_)
    intro p hp w hw
    exact himp p (by simp [hp]) w hw

theorem compactLoop_all_set (tId : Nat) :
    ∀ (entries : Dir) (rds : List (Nat × List Command)) (acc : List Command) (size : Nat),
    assocLookup rds tId = some acc →
    (∀ p ∈ entries, p.2.log_id ≠ tId) →
    (∀ p ∈ entries, ∃ f v, assocLookup rds p.2.log_id = some f ∧
        f[p.2.log_offset]? = some (Command.Set p.1 v)) →
    ∃ ws sz,
      compactLoop tId entries rds size =
        some (newEntries tId acc.length ws, rds.map (tAppend tId (setsOf ws)), sz) ∧
      List.Forall₂ (fun (p : String × ValueEntry) (w : String × String) => w.1 = p.1 ∧
        ∃ f, assocLookup rds p.2.log_id = some f ∧
          f[p.2.log_offset]? = some (Command.Set p.1 w.2)) entries ws := by
  intro entries
  induction entries with
  | nil =>
    intro rds acc size hacc _ _
    refine ⟨[], size, ?_, List.Forall₂.nil⟩
    simp only [compactLoop, newEntries, setsOf, List.map_nil, map_tAppend_nil]
  | cons p rest ih =>
    intro rds acc size hacc hne hpt
    obtain ⟨key, e⟩ := p
    obtain ⟨f, v, hf, hv⟩ := hpt (key, e) (by simp)
    have hacc2 : assocLookup (assocAppendAt rds tId (Command.Set key v)) tId =
        some (acc ++ [Command.Set key v]) := by
      rw [assocAppendAt, assocLookup_map_tAppend_self, hacc]
      rfl
    have hne2 : ∀ q ∈ rest, q.2.log_id ≠ tId := fun q hq => hne q (by simp [hq])
    have hpt2 : ∀ q ∈ rest, ∃ g w, assocLookup (assocAppendAt rds tId (Command.Set key v))
        q.2.log_id = some g ∧ g[q.2.log_offset]? = some (Command.Set q.1 w) := by
      intro q hq
      obtain ⟨g, w, hg, hw⟩ := hpt q (by simp [hq])
      refine ⟨g, w, ?_, hw⟩
      rw [assocAppendAt, assocLookup_map_tAppend_ne rds _ (hne2 q hq)]
      exact hg
    obtain ⟨ws', sz', hrec, hfa⟩ := ih (assocAppendAt rds tId (Command.Set key v))
      (acc ++ [Command.Set key v]) (size + encSize (Command.Set key v)) hacc2 hne2 hpt2
    refine ⟨(key, v) :: ws', sz', ?_, ?_⟩
    · simp only [compactLoop, hf, hv, hrec, hacc, Option.getD_some]
      have hmm : (assocAppendAt rds tId (Command.Set key v)).map (tAppend tId (setsOf ws')) =
          rds.map (tAppend tId (setsOf ((key, v) :: ws'))) := by
        rw [assocAppendAt, List.map_map]
        exact List.map_congr_left fun q _ => tAppend_comp tId [Command.Set key v] (setsOf ws') q
      rw [hmm]
      have hlen : (acc ++ [Command.Set key v]).length = acc.length + 1 := by simp
      rw [hlen]
      rfl
    · refine List.Forall₂.cons ⟨rfl, f, hf, hv⟩ ?_
      refine forall₂_transfer hfa ?_
      intro q hq w hw
      obtain ⟨hw1, g, hg, hgv⟩ := hw
      refine ⟨hw1, g, ?_, hgv⟩
      rw [assocAppendAt, assocLookup_map_tAppend_ne rds _ (hne2 q hq)] at hg
      exact hg

theorem compactLoop_target_sublist (tId : Nat) :
    ∀ (entries : Dir) (rds : List (Nat × List Command)) (size : Nat)
      (acc : List Command) (r : Dir × List (Nat × List Command) × Nat),
    assocLookup rds tId = some acc →
    compactLoop tId entries rds size = some r →
    ∃ ws : List (String × String),
      (ws.map Prod.fst).Sublist (entries.map Prod.fst) ∧
      assocLookup r.2.1 tId = some (acc ++ setsOf ws) := by
  intro entries
  induction entries with
  | nil =>
    intro rds size acc r hacc hr
    simp only [compactLoop, Option.some_inj] at hr
    refine ⟨[], by simp, ?_⟩
    rw [← hr]
    simpa [setsOf] using hacc
  | cons p rest ih =>
    intro rds size acc r hacc hr
    obtain ⟨key, e⟩ := p
    cases hf : assocLookup rds e.log_id with
    | none =>
      simp only [compactLoop, hf] at hr
      exact Option.noConfusion hr
    | some f =>
      cases hc : f[e.log_offset]? with
      | none =>
        cases hrec : compactLoop tId rest rds size with
        | none =>
          simp only [compactLoop, hf, hc, hrec] at hr
          exact Option.noConfusion hr
        | some r' =>
          simp only [compactLoop, hf, hc, hrec, Option.some_inj] at hr
          obtain ⟨ws, hsub, hlook⟩ := ih rds size acc r' hacc hrec
          refine ⟨ws, hsub.cons key, ?_⟩
          rw [← hr]
          exact hlook
      | some cmd =>
        cases cmd with
        | Remove k' =>
          cases hrec : compactLoop tId rest rds size with
          | none =>
            simp only [compactLoop, hf, hc, hrec] at hr
            exact Option.noConfusion hr
          | some r' =>
            simp only [compactLoop, hf, hc, hrec, Option.some_inj] at hr
            obtain ⟨ws, hsub, hlook⟩ := ih rds size acc r' hacc hrec
            refine ⟨ws, hsub.cons key, ?_⟩
            rw [← hr]
            exact hlook
        | Set k' v' =>
          have hacc2 : assocLookup (assocAppendAt rds tId (Command.Set key v')) tId =
              some (acc ++ [Command.Set key v']) := by
            rw [assocAppendAt, assocLookup_map_tAppend_self, hacc]
            rfl
          cases hrec : compactLoop tId rest (assocAppendAt rds tId (Command.Set key v'))
              (size + encSize (Command.Set key v')) with
          | none =>
            simp only [compactLoop, hf, hc, hrec] at hr
            exact Option.noConfusion hr
          | some r' =>
            simp only [compactLoop, hf, hc, hrec, Option.some_inj] at hr
            obtain ⟨ws, hsub, hlook⟩ := ih _ _ _ r' hacc2 hrec
            refine ⟨(key, v') :: ws, ?_, ?_⟩
            · exact List.Sublist.cons₂ key hsub
            · rw [← hr]
              rw [show acc ++ setsOf ((key, v') :: ws) =
                  (acc ++ [Command.Set key v']) ++ setsOf ws from by
                simp [setsOf]]
              exact hlook

theorem compactLoop_skip_non_set (tId : Nat) (k k' : String) (e : ValueEntry) (rest : Dir)
    (rds : List (Nat × List Command)) (size : Nat) (f : List Command)
    (hf : assocLookup rds e.log_id = some f)
    (hv : f[e.log_offset]? = some (Command.Remove k')) :
    compactLoop tId ((k, e) :: rest) rds size =
      (compactLoop tId rest rds size).map (fun r => ((k, e) :: r.1, r.2)) := by
  cases hrec : compactLoop tId rest rds size with
  | none => simp [compactLoop, hf, hv, hrec]
  | some r => simp [compactLoop, hf, hv, hrec]

theorem compact_no_err (s : KvStore) (er : KvsError) (s₂ : KvStore) :
    s.compact ≠ .err er s₂ := by
  cases h : compactLoop (s.log_id + 1) s.key_dir
      (insertSorted (s.log_id + 2, []) (insertSorted (s.log_id + 1, []) s.log_readers)) 0 with
  | none => simp [KvStore.compact, h]
  | some r => simp [KvStore.compact, h]

/-! ### Small helpers -/

theorem tAppend_ne {i : Nat} {p : Nat × List Command} (tail : List Command)
    (h : p.1 ≠ i) : tAppend i tail p = p := by
  unfold tAppend
  rw [if_neg h]

theorem assocLookup_some_mem {l : List (Nat × List Command)} {i : Nat} {f : List Command}
    (h : assocLookup l i = some f) : i ∈ idsOf l := by
  induction l with
  | nil => simp [assocLookup] at h
  | cons p rest ih =>
    by_cases hp : p.1 = i
    · simp [idsOf, hp.symm]
    · simp only [assocLookup, if_neg hp] at h
      simp [idsOf] at ih ⊢
      exact Or.inr (ih h)

theorem dirLookup_some_mem {d : Dir} {k : String} {e : ValueEntry}
    (h : dirLookup d k = some e) : (k, e) ∈ d := by
  induction d with
  | nil => simp [dirLookup] at h
  | cons p rest ih =>
    by_cases hp : p.1 = k
    · simp only [dirLookup, if_pos hp, Option.some_inj] at h
      have : p = (k, e) := by rw [← hp, ← h]
      simp [this]
    · simp only [dirLookup, if_neg hp] at h
      simp [ih h]

theorem get_of_dirLookup_none {s : KvStore} {k : String}
    (h : dirLookup s.key_dir k = none) : s.get k = GetRes.ok none := by
  simp [KvStore.get, h]

theorem get_no_keyNotFound (s : KvStore) (k : String) :
    s.get k ≠ GetRes.err KvsError.KeyNotFound := by
  unfold KvStore.get
  cases h1 : dirLookup s.key_dir k with
  | none => simp [h1]
  | some e =>
    cases h2 : assocLookup s.log_readers e.log_id with
    | none => simp [h1, h2]
    | some f =>
      cases h3 : f[e.log_offset]? with
      | none => simp [h1, h2, h3]
      | some c =>
        cases c with
        | Set a b => simp [h1, h2, h3]
        | Remove a => simp [h1, h2, h3]

theorem newEntries_keys (tId : Nat) (ws : List (String × String)) :
    ∀ st : Nat, (newEntries tId st ws).map Prod.fst = ws.map Prod.fst := by
  induction ws with
  | nil => intro st; rfl
  | cons w rest ih =>
    intro st
    cases w with
    | mk k v => simp [newEntries, ih (st + 1)]

theorem mem_newEntries {tId : Nat} {ws : List (String × String)} :
    ∀ {st : Nat} {p : String × ValueEntry}, p ∈ newEntries tId st ws →
    ∃ j w, ws[j]? = some w ∧ p = (w.1, ValueEntry.mk tId (st + j)) := by
  induction ws with
  | nil => intro st p hp; simp [newEntries] at hp
  | cons w rest ih =>
    intro st p hp
    cases w with
    | mk k v =>
      simp only [newEntries] at hp
      rcases List.mem_cons.mp hp with rfl | hp'
      · exact ⟨0, (k, v), by simp, by simp⟩
      · obtain ⟨j, w', hw', he⟩ := ih hp'
        refine ⟨j + 1, w', by simpa using hw', ?_⟩
        rw [he]
        have : st + 1 + j = st + (j + 1) := by omega
        rw [this]

theorem forall₂_keys_eq {R : (String × ValueEntry) → (String × String) → Prop}
    {es : Dir} {ws : List (String × String)} (h : List.Forall₂ R es ws)
    (hk : ∀ p w, R p w → w.1 = p.1) : ws.map Prod.fst = es.map Prod.fst := by
  induction h with
  | nil => rfl
  | cons hpw _ ih => simp [hk _ _ hpw, ih]

theorem forall₂_newEntries_lookup (tId : Nat)
    {R : (String × ValueEntry) → (String × String) → Prop}
    (hk : ∀ p w, R p w → w.1 = p.1) :
    ∀ {es : Dir} {ws : List (String × String)}, List.Forall₂ R es ws →
    (es.map Prod.fst).Nodup →
    ∀ {k : String} {e : ValueEntry}, dirLookup es k = some e → ∀ st : Nat,
    ∃ j w, dirLookup (newEntries tId st ws) k = some (ValueEntry.mk tId (st + j)) ∧
      ws[j]? = some w ∧ R (k, e) w := by
  intro es ws hfa
  induction hfa with
  | nil => intro _ k e hd; simp [dirLookup] at hd
  | @cons p w es' ws' hpw htail ih =>
    intro hnd k e hd st
    have hw1 : w.1 = p.1 := hk p w hpw
    by_cases hp : p.1 = k
    · simp only [dirLookup, if_pos hp, Option.some_inj] at hd
      have hpe : p = (k, e) := by rw [← hp, ← hd]
      refine ⟨0, w, ?_, by simp, hpe ▸ hpw⟩
      cases w with
      | mk wk wv =>
        simp only [newEntries, dirLookup]
        have : wk = k := by
          have : wk = p.1 := hw1
          rw [this, hp]
        rw [if_pos this]
        simp
    · simp only [dirLookup, if_neg hp] at hd
      rw [List.map_cons, List.nodup_cons] at hnd
      obtain ⟨j, w', hj, hw', hR⟩ := ih hnd.2 hd (st + 1)
      refine ⟨j + 1, w', ?_, by simpa using hw', hR⟩
      cases w with
      | mk wk wv =>
        simp only [newEntries, dirLookup]
        have hwk : ¬ wk = k := by
          have : wk = p.1 := hw1
          rw [this]
          exact hp
        rw [if_neg hwk]
        have : st + (j + 1) = st + 1 + j := by omega
        rw [this]
        exact hj

theorem loadAll_fst_single (i : Nat) (g : List Command) (d : Dir) :
    (loadAll [(i, g)] d).1 = (load i g 0 d).1 := by
  simp [loadAll]

/-! ### The invariant holds after `open` -/

theorem storeInv_openStore (files : List (Nat × List Command))
    (h : (idsOf files).Nodup) : StoreInv (openStore files) := by
  show StoreInv
    { log_readers := insertSorted ((((sortById files).map Prod.fst).getLast?.getD 0) + 1, [])
        (sortById files)
      log_id := (((sortById files).map Prod.fst).getLast?.getD 0) + 1
      key_dir := (loadAll (sortById files) []).1
      size := (loadAll (sortById files) []).2 }
  have hperm : ((sortById files).map Prod.fst).Perm (files.map Prod.fst) :=
    (sortById_perm files).map Prod.fst
  have hnd : ((sortById files).map Prod.fst).Nodup := hperm.nodup_iff.mpr h
  have hle : (idsOf (sortById files)).Pairwise (· ≤ ·) := sortById_sorted_le files
  have hsorted : ((sortById files).map Prod.fst).Pairwise (· < ·) :=
    sorted_lt_of_le_nodup hle hnd
  have hlast : ((sortById files).map Prod.fst).getLast?.getD 0 =
      ((sortById files).map Prod.fst).foldr max 0 := sorted_getLast_eq_foldr_max hle
  have hlt : ∀ i ∈ (sortById files).map Prod.fst,
      i < (((sortById files).map Prod.fst).getLast?.getD 0) + 1 := by
    intro i hi
    have h1 := le_foldr_max hi
    rw [hlast]
    omega
  have hreaders : insertSorted ((((sortById files).map Prod.fst).getLast?.getD 0) + 1, [])
      (sortById files) =
      sortById files ++ [((((sortById files).map Prod.fst).getLast?.getD 0) + 1, [])] :=
    insertSorted_append_end fun q hq =>
      not_le_of_gt (hlt q.1 (List.mem_map_of_mem Prod.fst hq))
  have hner : ∀ p ∈ sortById files,
      p.1 ≠ (((sortById files).map Prod.fst).getLast?.getD 0) + 1 :=
    fun p hp => Nat.ne_of_lt (hlt p.1 (List.mem_map_of_mem Prod.fst hp))
  refine ⟨?_, ?_, ?_, ?_, ?_, ?_⟩
  · show (idsOf (insertSorted _ (sortById files))).Pairwise (· < ·)
    rw [hreaders]
    unfold idsOf
    rw [List.map_append, List.pairwise_append]
    refine ⟨hsorted, by simp, ?_⟩
    intro a ha b hb
    simp only [List.map_cons, List.map_nil, List.mem_singleton] at hb
    rw [hb]
    exact hlt a ha
  · show ∀ i ∈ idsOf (insertSorted _ (sortById files)),
      i ≤ (((sortById files).map Prod.fst).getLast?.getD 0) + 1
    rw [hreaders]
    unfold idsOf
    rw [List.map_append]
    intro i hi
    rcases List.mem_append.mp hi with hi' | hi'
    · exact le_of_lt (hlt i hi')
    · have : i = (((sortById files).map Prod.fst).getLast?.getD 0) + 1 := by
        rw [List.map_cons, List.map_nil] at hi'
        exact List.mem_singleton.mp hi'
      omega
  · show ∃ f, assocLookup (insertSorted _ (sortById files)) _ = some f
    rw [hreaders, assocLookup_append_right hner]
    exact ⟨[], by simp [assocLookup]⟩
  · exact loadAll_fst_sorted (sortById files) [] (by simp)
  · intro p hp
    rcases loadAll_fst_points (sortById files) [] (fun _ => False) (by simp) p hp with
      hF | ⟨pr, hpr, j, v, he, hj⟩
    · exact hF.elim
    · refine ⟨pr.2, v, ?_, ?_⟩
      · show assocLookup (insertSorted _ (sortById files)) p.2.log_id = some pr.2
        rw [hreaders, he]
        exact assocLookup_append_left (assocLookup_mem_nodup hnd hpr)
      · rw [he]
        exact hj
  · show (loadAll (insertSorted _ (sortById files)) []).1 = (loadAll (sortById files) []).1
    rw [hreaders, loadAll_fst_append, loadAll_fst_single]
    simp [load]

/-! ### The invariant is preserved by appending to the active segment -/

theorem appendActive_spec {s : KvStore} (hs : StoreInv s) (c : Command) :
    ∃ f, assocLookup s.log_readers s.log_id = some f ∧
      idsOf (assocAppendAt s.log_readers s.log_id c) = idsOf s.log_readers ∧
      assocLookup (assocAppendAt s.log_readers s.log_id c) s.log_id = some (f ++ [c]) ∧
      (∀ j, j ≠ s.log_id → assocLookup (assocAppendAt s.log_readers s.log_id c) j =
        assocLookup s.log_readers j) ∧
      (loadAll (assocAppendAt s.log_readers s.log_id c) []).1 =
        applyCmd s.log_id f.length c (loadAll s.log_readers []).1 := by
  obtain ⟨f, hf⟩ := hs.activeMem
  obtain ⟨l0, hdec, hlt⟩ := readers_last_decomp hs.readersSorted hs.idsLe hf
  have hmap : assocAppendAt s.log_readers s.log_id c =
      l0 ++ [(s.log_id, f ++ [c])] := by
    show s.log_readers.map (tAppend s.log_id [c]) = _
    rw [hdec, List.map_append]
    congr 1
    · exact (List.map_congr_left fun p hp =>
        tAppend_ne [c] (Nat.ne_of_lt (hlt p hp))).trans (List.map_id' l0)
    · show [tAppend s.log_id [c] (s.log_id, f)] = [(s.log_id, f ++ [c])]
      unfold tAppend
      rw [if_pos rfl]
  refine ⟨f, hf, ?_, ?_, ?_, ?_⟩
  · show idsOf (s.log_readers.map (tAppend s.log_id [c])) = idsOf s.log_readers
    exact idsOf_map_tAppend s.log_readers s.log_id [c]
  · show assocLookup (s.log_readers.map (tAppend s.log_id [c])) s.log_id = some (f ++ [c])
    rw [assocLookup_map_tAppend_self, hf]
    rfl
  · intro j hj
    exact assocLookup_map_tAppend_ne s.log_readers [c] hj
  · rw [hmap, loadAll_fst_append, loadAll_fst_single, load_fst_append_one]
    rw [show (0 : Nat) + f.length = f.length from Nat.zero_add f.length]
    rw [show (load s.log_id f 0 (loadAll l0 []).1).1 =
        (loadAll (l0 ++ [(s.log_id, f)]) []).1 from by
      rw [loadAll_fst_append, loadAll_fst_single]]
    rw [← hdec]

theorem setRaw_spec {s : KvStore} (hs : StoreInv s) (k v : String) :
    StoreInv (s.setRaw k v) ∧ (s.setRaw k v).get k = GetRes.ok (some v) ∧
    (s.setRaw k v).log_id = s.log_id ∧
    idsOf (s.setRaw k v).log_readers = idsOf s.log_readers := by
  obtain ⟨f, hf, hids, hself, hne, hreplay⟩ := appendActive_spec hs (Command.Set k v)
  have hfields : s.setRaw k v =
      { log_readers := assocAppendAt s.log_readers s.log_id (Command.Set k v)
        log_id := s.log_id
        key_dir := dirInsert s.key_dir k
          ⟨s.log_id, ((assocLookup s.log_readers s.log_id).getD []).length⟩
        size := s.size + encSize (Command.Set k v) } := rfl
  have hoff : ((assocLookup s.log_readers s.log_id).getD []).length = f.length := by
    rw [hf]
    rfl
  rw [hfields, hoff]
  refine ⟨⟨?_, ?_, ?_, ?_, ?_, ?_⟩, ?_, rfl, hids⟩
  · show (idsOf (assocAppendAt s.log_readers s.log_id (Command.Set k v))).Pairwise (· < ·)
    rw [hids]
    exact hs.readersSorted
  · show ∀ i ∈ idsOf (assocAppendAt s.log_readers s.log_id (Command.Set k v)), i ≤ s.log_id
    rw [hids]
    exact hs.idsLe
  · exact ⟨f ++ [Command.Set k v], hself⟩
  · exact dirInsert_sorted hs.dirSorted k ⟨s.log_id, f.length⟩
  · intro p hp
    rcases mem_dirInsert hp with rfl | hp'
    · exact ⟨f ++ [Command.Set k v], v, hself, by
        show (f ++ [Command.Set k v])[f.length]? = some (Command.Set k v)
        exact List.getElem?_concat_length f (Command.Set k v)⟩
    · obtain ⟨g, w, hg, hw⟩ := hs.pointsSet p hp'
      by_cases hj : p.2.log_id = s.log_id
      · rw [hj] at hg ⊢
        rw [hf] at hg
        have hgf : g = f := by injection hg with h1; exact h1.symm
        subst hgf
        have hofflt : p.2.log_offset < g.length := (List.getElem?_eq_some.mp hw).1
        refine ⟨g ++ [Command.Set k v], w, hself, ?_⟩
        rw [List.getElem?_append_left hofflt]
        exact hw
      · exact ⟨g, w, by rw [hne p.2.log_id hj]; exact hg, hw⟩
  · show (loadAll (assocAppendAt s.log_readers s.log_id (Command.Set k v)) []).1 = _
    rw [hreplay, hs.replayEq]
    rfl
  · show KvStore.get _ k = GetRes.ok (some v)
    have hd : dirLookup (dirInsert s.key_dir k ⟨s.log_id, f.length⟩) k =
        some ⟨s.log_id, f.length⟩ := dirLookup_dirInsert_self s.key_dir k _
    simp only [KvStore.get, hd, hself, List.getElem?_concat_length]

theorem removeRaw_spec {s : KvStore} (hs : StoreInv s) (k : String) :
    StoreInv (s.removeRaw k) ∧ dirLookup (s.removeRaw k).key_dir k = none ∧
    (s.removeRaw k).log_id = s.log_id := by
  obtain ⟨f, hf, hids, hself, hne, hreplay⟩ := appendActive_spec hs (Command.Remove k)
  have hfields : s.removeRaw k =
      { log_readers := assocAppendAt s.log_readers s.log_id (Command.Remove k)
        log_id := s.log_id
        key_dir := dirRemove s.key_dir k
        size := s.size + encSize (Command.Remove k) } := rfl
  rw [hfields]
  refine ⟨⟨?_, ?_, ?_, ?_, ?_, ?_⟩, ?_, rfl⟩
  · show (idsOf (assocAppendAt s.log_readers s.log_id (Command.Remove k))).Pairwise (· < ·)
    rw [hids]
    exact hs.readersSorted
  · show ∀ i ∈ idsOf (assocAppendAt s.log_readers s.log_id (Command.Remove k)), i ≤ s.log_id
    rw [hids]
    exact hs.idsLe
  · exact ⟨f ++ [Command.Remove k], hself⟩
  · exact dirRemove_sorted hs.dirSorted k
  · intro p hp
    have hp' : p ∈ s.key_dir := mem_dirRemove hp
    obtain ⟨g, w, hg, hw⟩ := hs.pointsSet p hp'
    by_cases hj : p.2.log_id = s.log_id
    · rw [hj] at hg ⊢
      rw [hf] at hg
      have hgf : g = f := by injection hg with h1; exact h1.symm
      subst hgf
      have hofflt : p.2.log_offset < g.length := (List.getElem?_eq_some.mp hw).1
      refine ⟨g ++ [Command.Remove k], w, hself, ?_⟩
      rw [List.getElem?_append_left hofflt]
      exact hw
    · exact ⟨g, w, by rw [hne p.2.log_id hj]; exact hg, hw⟩
  · show (loadAll (assocAppendAt s.log_readers s.log_id (Command.Remove k)) []).1 = _
    rw [hreplay, hs.replayEq]
    rfl
  · exact dirLookup_dirRemove_self s.key_dir k

/-! ### The invariant is preserved by compaction, which also preserves
the visible mapping -/

theorem compact_spec {s : KvStore} (hs : StoreInv s) :
    ∃ s', s.compact = OpRes.ok s' ∧ StoreInv s' ∧
      s'.key_dir.map Prod.fst = s.key_dir.map Prod.fst ∧
      s'.log_id = s.log_id + 2 ∧
      (∀ k, s'.get k = s.get k) := by
  have hlt : ∀ i ∈ idsOf s.log_readers, i < s.log_id + 1 :=
    fun i hi => Nat.lt_succ_of_le (hs.idsLe i hi)
  have hr1 : insertSorted (s.log_id + 1, []) s.log_readers =
      s.log_readers ++ [(s.log_id + 1, [])] :=
    insertSorted_append_end fun q hq =>
      not_le_of_gt (hlt q.1 (List.mem_map_of_mem Prod.fst hq))
  have hr2 : insertSorted (s.log_id + 2, []) (s.log_readers ++ [(s.log_id + 1, [])]) =
      s.log_readers ++ [(s.log_id + 1, []), (s.log_id + 2, [])] := by
    rw [insertSorted_append_end ?hbig, List.append_assoc]
    · rfl
    case hbig =>
      intro q hq
      rcases List.mem_append.mp hq with hq' | hq'
      · have := hlt q.1 (List.mem_map_of_mem Prod.fst hq')
        omega
      · have : q = (s.log_id + 1, ([] : List Command)) := by simpa using hq'
        rw [this]
        show ¬ s.log_id + 2 ≤ s.log_id + 1
        omega
  have hnotin : ∀ p ∈ s.log_readers, p.1 ≠ s.log_id + 1 :=
    fun p hp => Nat.ne_of_lt (hlt p.1 (List.mem_map_of_mem Prod.fst hp))
  have hacc : assocLookup (s.log_readers ++ [(s.log_id + 1, []), (s.log_id + 2, [])])
      (s.log_id + 1) = some [] := by
    rw [assocLookup_append_right hnotin]
    simp [assocLookup]
  have hne : ∀ p ∈ s.key_dir, p.2.log_id ≠ s.log_id + 1 := by
    intro p hp
    obtain ⟨g, w, hg, _⟩ := hs.pointsSet p hp
    exact Nat.ne_of_lt (hlt _ (assocLookup_some_mem hg))
  have hpt : ∀ p ∈ s.key_dir, ∃ f v,
      assocLookup (s.log_readers ++ [(s.log_id + 1, []), (s.log_id + 2, [])]) p.2.log_id =
        some f ∧ f[p.2.log_offset]? = some (Command.Set p.1 v) := by
    intro p hp
    obtain ⟨g, w, hg, hw⟩ := hs.pointsSet p hp
    exact ⟨g, w, assocLookup_append_left hg, hw⟩
  obtain ⟨ws, sz, hloop, hfa⟩ := compactLoop_all_set (s.log_id + 1) s.key_dir
    (s.log_readers ++ [(s.log_id + 1, []), (s.log_id + 2, [])]) [] 0 hacc hne hpt
  have hne12 : ¬ (s.log_id + 2 = s.log_id + 1) := by omega
  have hmapped : (s.log_readers ++ [(s.log_id + 1, []), (s.log_id + 2, [])]).map
      (tAppend (s.log_id + 1) (setsOf ws)) =
      s.log_readers ++ [(s.log_id + 1, setsOf ws), (s.log_id + 2, [])] := by
    rw [List.map_append]
    congr 1
    · exact (List.map_congr_left fun p hp =>
        tAppend_ne (setsOf ws) (hnotin p hp)).trans (List.map_id' s.log_readers)
    · show [tAppend (s.log_id + 1) (setsOf ws) (s.log_id + 1, []),
        tAppend (s.log_id + 1) (setsOf ws) (s.log_id + 2, [])] = _
      unfold tAppend
      rw [if_pos rfl, if_neg hne12]
      simp
  have hwskeys : ws.map Prod.fst = s.key_dir.map Prod.fst :=
    forall₂_keys_eq hfa fun p w h => h.1
  have hkeys : (newEntries (s.log_id + 1) 0 ws).map Prod.fst = s.key_dir.map Prod.fst := by
    rw [newEntries_keys, hwskeys]
  have hfilter : (s.log_readers ++ [(s.log_id + 1, setsOf ws), (s.log_id + 2, [])]).filter
      (fun p => decide (¬ p.1 < s.log_id + 1)) =
      [(s.log_id + 1, setsOf ws), (s.log_id + 2, [])] := by
    rw [List.filter_append]
    have h1 : s.log_readers.filter (fun p => decide (¬ p.1 < s.log_id + 1)) = [] := by
      rw [List.filter_eq_nil_iff]
      intro p hp
      have := hlt p.1 (List.mem_map_of_mem Prod.fst hp)
      simp [this]
    rw [h1, List.nil_append]
    have c1 : decide (¬ s.log_id + 1 < s.log_id + 1) = true := by simp
    have c2 : decide (¬ s.log_id + 2 < s.log_id + 1) = true := by
      simp only [decide_eq_true_eq]
      omega
    simp [List.filter, c1, c2]
  have hcompact : s.compact = OpRes.ok
      { log_readers := [(s.log_id + 1, setsOf ws), (s.log_id + 2, [])]
        log_id := s.log_id + 2
        key_dir := newEntries (s.log_id + 1) 0 ws
        size := sz } := by
    simp only [KvStore.compact, hr1, hr2, hloop, hmapped, hfilter, List.length_nil]
  refine ⟨_, hcompact, ⟨?_, ?_, ?_, ?_, ?_, ?_⟩, hkeys, rfl, ?_⟩
  · show (idsOf [(s.log_id + 1, setsOf ws), (s.log_id + 2, [])]).Pairwise (· < ·)
    simp [idsOf]
  · show ∀ i ∈ idsOf [(s.log_id + 1, setsOf ws), (s.log_id + 2, [])], i ≤ s.log_id + 2
    intro i hi
    simp [idsOf] at hi
    omega
  · refine ⟨[], ?_⟩
    show assocLookup [(s.log_id + 1, setsOf ws), (s.log_id + 2, [])] (s.log_id + 2) = some []
    simp [assocLookup, hne12]
  · show ((newEntries (s.log_id + 1) 0 ws).map Prod.fst).Pairwise (· < ·)
    rw [hkeys]
    exact hs.dirSorted
  · intro p hp
    obtain ⟨j, w, hj, he⟩ := mem_newEntries hp
    refine ⟨setsOf ws, w.2, ?_, ?_⟩
    · rw [he]
      show assocLookup [(s.log_id + 1, setsOf ws), (s.log_id + 2, [])] (s.log_id + 1) = _
      simp [assocLookup]
    · rw [he]
      show (setsOf ws)[0 + j]? = some (Command.Set w.1 w.2)
      rw [Nat.zero_add]
      unfold setsOf
      rw [List.getElem?_map, hj]
      rfl
  · show (loadAll [(s.log_id + 1, setsOf ws), (s.log_id + 2, [])] []).1 =
      newEntries (s.log_id + 1) 0 ws
    have hstep : (loadAll [(s.log_id + 1, setsOf ws), (s.log_id + 2, [])] []).1 =
        (load (s.log_id + 1) (setsOf ws) 0 []).1 := by
      simp [loadAll, load]
    rw [hstep]
    rw [load_fst_setsOf (s.log_id + 1) ws 0 [] (by rw [hwskeys]; exact hs.dirSorted) (by simp)]
    rfl
  · intro k
    cases hd : dirLookup s.key_dir k with
    | none =>
      have hd' : dirLookup (newEntries (s.log_id + 1) 0 ws) k = none :=
        dirLookup_none_of_keys_eq hkeys.symm hd
      rw [get_of_dirLookup_none hd, get_of_dirLookup_none hd']
    | some e =>
      have hmem : (k, e) ∈ s.key_dir := dirLookup_some_mem hd
      obtain ⟨g, v, hg, hv⟩ := hs.pointsSet (k, e) hmem
      have hsget : s.get k = GetRes.ok (some v) := by
        simp only [KvStore.get, hd, hg, hv]
      have hnd : (s.key_dir.map Prod.fst).Nodup :=
        hs.dirSorted.imp fun hab => ne_of_lt hab
      obtain ⟨j, w, hdj, hwj, hR⟩ := forall₂_newEntries_lookup (s.log_id + 1)
        (fun p w h => h.1) hfa hnd hd 0
      obtain ⟨hw1, g', hg', hv'⟩ := hR
      have hgg : g' = g := by
        rw [assocLookup_append_left hg] at hg'
        injection hg' with h1
        exact h1.symm
      subst hgg
      have hw2 : Command.Set k w.2 = Command.Set k v := by
        rw [hv] at hv'
        injection hv' with h1
        exact h1.symm
      have hw2' : w.2 = v := by injection hw2
      have hsget2 : KvStore.get
          { log_readers := [(s.log_id + 1, setsOf ws), (s.log_id + 2, [])]
            log_id := s.log_id + 2
            key_dir := newEntries (s.log_id + 1) 0 ws
            size := sz } k = GetRes.ok (some v) := by
        have hlook2 : assocLookup [(s.log_id + 1, setsOf ws), (s.log_id + 2, [])]
            (s.log_id + 1) = some (setsOf ws) := by
          simp [assocLookup]
        have hrec2 : (setsOf ws)[(0 + j : Nat)]? = some (Command.Set k v) := by
          rw [Nat.zero_add]
          unfold setsOf
          rw [List.getElem?_map, hwj]
          show some (Command.Set w.1 w.2) = some (Command.Set k v)
          rw [hw1, hw2']
        simp only [KvStore.get, hdj, hlook2, hrec2]
      rw [hsget, hsget2]

/-! ### Top-level operation specifications -/

theorem set_spec {s : KvStore} (hs : StoreInv s) (k v : String) :
    ∃ s', s.set k v = OpRes.ok s' ∧ StoreInv s' ∧ s'.get k = GetRes.ok (some v) := by
  obtain ⟨h1, hget, _, _⟩ := setRaw_spec hs k v
  by_cases hth : (s.setRaw k v).size > COMPACTION_THRESHOLD
  · obtain ⟨s', hok, hinv, _, _, hgp⟩ := compact_spec h1
    refine ⟨s', ?_, hinv, ?_⟩
    · show KvStore.set s k v = OpRes.ok s'
      simp only [KvStore.set, if_pos hth]
      exact hok
    · rw [hgp k, hget]
  · refine ⟨s.setRaw k v, ?_, h1, hget⟩
    show KvStore.set s k v = OpRes.ok (s.setRaw k v)
    simp only [KvStore.set, if_neg hth]

theorem remove_absent {s : KvStore} {k : String} (h : dirLookup s.key_dir k = none) :
    s.remove k = OpRes.err KvsError.KeyNotFound s := by
  simp [KvStore.remove, h]

theorem remove_spec_present {s : KvStore} (hs : StoreInv s) {k : String} {e : ValueEntry}
    (hd : dirLookup s.key_dir k = some e) :
    ∃ s', s.remove k = OpRes.ok s' ∧ StoreInv s' ∧
      dirLookup s'.key_dir k = none ∧ s'.get k = GetRes.ok none := by
  obtain ⟨h1, hnone, _⟩ := removeRaw_spec hs k
  have hsome : (dirLookup s.key_dir k).isSome = true := by rw [hd]; rfl
  by_cases hth : (s.removeRaw k).size > COMPACTION_THRESHOLD
  · obtain ⟨s', hok, hinv, hkeys, _, hgp⟩ := compact_spec h1
    have hnone' : dirLookup s'.key_dir k = none :=
      dirLookup_none_of_keys_eq hkeys.symm hnone
    refine ⟨s', ?_, hinv, hnone', get_of_dirLookup_none hnone'⟩
    show KvStore.remove s k = OpRes.ok s'
    simp only [KvStore.remove, hsome, if_true, if_pos hth]
    exact hok
  · refine ⟨s.removeRaw k, ?_, h1, hnone, get_of_dirLookup_none hnone⟩
    show KvStore.remove s k = OpRes.ok (s.removeRaw k)
    simp only [KvStore.remove, hsome, if_true, if_neg hth]

theorem reachable_storeInv {s : KvStore} (h : Reachable s) : StoreInv s := by
  induction h with
  | opened files hnd => exact storeInv_openStore files hnd
  | @setStep s0 s' k v _ hok ih =>
    obtain ⟨s'', hok', hinv, _⟩ := set_spec ih k v
    rw [hok] at hok'
    injection hok' with h1
    rw [h1]
    exact hinv
  | @removeStep s0 s' k _ hok ih =>
    cases hd : dirLookup s0.key_dir k with
    | none =>
      rw [remove_absent hd] at hok
      exact absurd hok (by simp)
    | some e =>
      obtain ⟨s'', hok', hinv, _, _⟩ := remove_spec_present ih hd
      rw [hok] at hok'
      injection hok' with h1
      rw [h1]
      exact hinv

/-! ### File-name parsing lemmas (for the `open` directory scan) -/

theorem afterLastDot_none {m : List Char} (h : ∀ c ∈ m, c ≠ '.') :
    afterLastDot m = none := by
  induction m with
  | nil => rfl
  | cons c rest ih =>
    simp only [afterLastDot, ih fun x hx => h x (by simp [hx])]
    rw [if_neg (h c (by simp))]

theorem afterLastDot_append (l : List Char) {m : List Char} (h : ∀ c ∈ m, c ≠ '.') :
    afterLastDot (l ++ '.' :: m) = some m := by
  induction l with
  | nil =>
    show afterLastDot ('.' :: m) = some m
    simp [afterLastDot, afterLastDot_none h]
  | cons c rest ih =>
    show afterLastDot (c :: (rest ++ '.' :: m)) = some m
    simp only [afterLastDot, ih]

theorem stripLogRev_no_dot : ∀ {m : List Char}, (∀ c ∈ m, c ≠ '.') → stripLogRev m = m := by
  intro m h
  rcases m with _ | ⟨a, _ | ⟨b, _ | ⟨c, _ | ⟨d, rest⟩⟩⟩⟩
  · rfl
  · rfl
  · rfl
  · rfl
  · simp only [stripLogRev]
    rw [if_neg fun hcon => (h d (by simp)) hcon.2.2.2]

theorem parseU64_all_digits {l : List Char} (hne : l ≠ [])
    (hdig : ∀ c ∈ l, c.isDigit = true) (hlt : digitsVal l < 2 ^ 64)
    (hplus : ¬ (l.head? = some '+')) :
    parseU64 l.asString = some (digitsVal l) := by
  show (if (if l.head? = some '+' then l.tail else l) ≠ [] ∧
      (∀ c ∈ (if l.head? = some '+' then l.tail else l), c.isDigit = true) ∧
      digitsVal (if l.head? = some '+' then l.tail else l) < 2 ^ 64 then
      some (digitsVal (if l.head? = some '+' then l.tail else l)) else none) =
    some (digitsVal l)
  rw [if_neg hplus, if_pos ⟨hne, hdig, hlt⟩]

/-! ### A lookup is unaffected by filtering out other ids -/

theorem assocLookup_filter {l : List (Nat × List Command)} {i : Nat}
    {q : Nat × List Command → Bool} (hq : ∀ p ∈ l, q p = false → p.1 ≠ i) :
    assocLookup (l.filter q) i = assocLookup l i := by
  induction l with
  | nil => rfl
  | cons p rest ih =>
    have ih' := ih fun r hr => hq r (by simp [hr])
    cases hqp : q p with
    | true =>
      rw [show (p :: rest).filter q = p :: rest.filter q from by
        simp [List.filter_cons, hqp]]
      show (if p.1 = i then some p.2 else assocLookup (rest.filter q) i) = _
      by_cases hp : p.1 = i
      · simp only [if_pos hp, assocLookup]
      · simp only [if_neg hp, ih', assocLookup]
    | false =>
      rw [show (p :: rest).filter q = rest.filter q from by
        simp [List.filter_cons, hqp]]
      rw [ih']
      have hp : ¬ p.1 = i := hq p (by simp) hqp
      simp only [assocLookup, if_neg hp]

/-- The active id chosen by `open` is `max(existing ids, 0) + 1`. -/
theorem openStore_log_id (files : List (Nat × List Command)) :
    (openStore files).log_id = (idsOf files).foldr max 0 + 1 := by
  show (idsOf (sortById files)).getLast?.getD 0 + 1 = (idsOf files).foldr max 0 + 1
  rw [sorted_getLast_eq_foldr_max (sortById_sorted_le files)]
  exact congrArg (fun n => n + 1) (foldr_max_perm ((sortById_perm files).map Prod.fst))

/-! ### Claim theorems -/

/-- Claim C1: for every key `k` and value `v`, immediately after a successful
`set(k, v)` on a store reachable by any prior sequence of successful
operations, `get(k)` returns `Some(v)` (read-your-writes), including when the
`set` triggered a compaction. -/
theorem kvs_c1_read_your_writes (s s' : KvStore) (k v : String)
    (hr : Reachable s) (h : s.set k v = OpRes.ok s') :
    s'.get k = GetRes.ok (some v) := by
  obtain ⟨s'', hok, _, hget⟩ := set_spec (reachable_storeInv hr) k v
  rw [h] at hok
  injection hok with h1
  rw [h1]
  exact hget

/-- Witness for C1 at a concrete input: `set "a" "1"` on a freshly opened
store, then `get "a"`. -/
theorem kvs_c1_witness :
    (openStore []).set "a" "1" =
      OpRes.ok ⟨[(1, [Command.Set "a" "1"])], 1, [("a", ⟨1, 0⟩)], 29⟩ ∧
    KvStore.get ⟨[(1, [Command.Set "a" "1"])], 1, [("a", ⟨1, 0⟩)], 29⟩ "a" =
      GetRes.ok (some "1") :=
  ⟨by decide, kvs_c1_read_your_writes (openStore [])
    ⟨[(1, [Command.Set "a" "1"])], 1, [("a", ⟨1, 0⟩)], 29⟩ "a" "1"
    (Reachable.opened [] (by decide)) (by decide)⟩

/-- Claim C6: `remove` on a key absent from the directory fails with
`KeyNotFound` and leaves the store entirely unchanged (the error carries the
untouched store: nothing appended, directory, byte counter and segments as
before, no compaction), and `KeyNotFound` is never produced by `get`, which
returns `None` for an absent key. -/
theorem kvs_c6_remove_absent (s : KvStore) (k : String)
    (h : dirLookup s.key_dir k = none) :
    s.remove k = OpRes.err KvsError.KeyNotFound s ∧
    s.get k = GetRes.ok none ∧
    (∀ k', s.get k' ≠ GetRes.err KvsError.KeyNotFound) :=
  ⟨remove_absent h, get_of_dirLookup_none h, fun k' => get_no_keyNotFound s k'⟩

/-- Witness for C6 at a concrete input. -/
theorem kvs_c6_witness :
    KvStore.remove ⟨[(1, [])], 1, [], 0⟩ "x" =
      OpRes.err KvsError.KeyNotFound ⟨[(1, [])], 1, [], 0⟩ ∧
    KvStore.get ⟨[(1, [])], 1, [], 0⟩ "x" = GetRes.ok none :=
  ⟨(kvs_c6_remove_absent ⟨[(1, [])], 1, [], 0⟩ "x" (by decide)).1,
   (kvs_c6_remove_absent ⟨[(1, [])], 1, [], 0⟩ "x" (by decide)).2.1⟩

/-- Claim C7: after a successful `remove(k)` on a reachable store (which
requires `k` to have been present), `get(k)` returns `None` and a second
`remove(k)` fails with `KeyNotFound`. -/
theorem kvs_c7_remove_then_get (s s' : KvStore) (k : String) (hr : Reachable s)
    (h : s.remove k = OpRes.ok s') :
    s'.get k = GetRes.ok none ∧
    s'.remove k = OpRes.err KvsError.KeyNotFound s' := by
  have hs := reachable_storeInv hr
  cases hd : dirLookup s.key_dir k with
  | none =>
    rw [remove_absent hd] at h
    exact absurd h (by simp)
  | some e =>
    obtain ⟨s'', hok, _, hnone, hget⟩ := remove_spec_present hs hd
    rw [h] at hok
    injection hok with h1
    refine ⟨by rw [h1]; exact hget, by rw [h1]; exact remove_absent hnone⟩

/-- Witness for C7 at a concrete input. -/
theorem kvs_c7_witness :
    KvStore.remove ⟨[(1, [Command.Set "a" "1"])], 1, [("a", ⟨1, 0⟩)], 29⟩ "a" =
      OpRes.ok ⟨[(1, [Command.Set "a" "1", Command.Remove "a"])], 1, [], 51⟩ ∧
    KvStore.get ⟨[(1, [Command.Set "a" "1", Command.Remove "a"])], 1, [], 51⟩ "a" =
      GetRes.ok none ∧
    KvStore.remove ⟨[(1, [Command.Set "a" "1", Command.Remove "a"])], 1, [], 51⟩ "a" =
      OpRes.err KvsError.KeyNotFound
        ⟨[(1, [Command.Set "a" "1", Command.Remove "a"])], 1, [], 51⟩ :=
  ⟨by decide,
   (kvs_c7_remove_then_get ⟨[(1, [Command.Set "a" "1"])], 1, [("a", ⟨1, 0⟩)], 29⟩
     ⟨[(1, [Command.Set "a" "1", Command.Remove "a"])], 1, [], 51⟩ "a"
     (@Reachable.setStep (openStore []) ⟨[(1, [Command.Set "a" "1"])], 1, [("a", ⟨1, 0⟩)], 29⟩
       "a" "1" (Reachable.opened [] (by decide)) (by decide)) (by decide)).1,
   (kvs_c7_remove_then_get ⟨[(1, [Command.Set "a" "1"])], 1, [("a", ⟨1, 0⟩)], 29⟩
     ⟨[(1, [Command.Set "a" "1", Command.Remove "a"])], 1, [], 51⟩ "a"
     (@Reachable.setStep (openStore []) ⟨[(1, [Command.Set "a" "1"])], 1, [("a", ⟨1, 0⟩)], 29⟩
       "a" "1" (Reachable.opened [] (by decide)) (by decide)) (by decide)).2⟩

/-- Claim C9 (implicit): when a directory entry points at an offset at which
the segment's stream is exhausted (the offset is at or past the end), `get`
returns `Ok(None)` as if the key were absent, not an error. -/
theorem kvs_c9_exhausted_stream (s : KvStore) (k : String) (e : ValueEntry)
    (f : List Command) (h1 : dirLookup s.key_dir k = some e)
    (h2 : assocLookup s.log_readers e.log_id = some f)
    (h3 : f.length ≤ e.log_offset) : s.get k = GetRes.ok none := by
  have hn : f[e.log_offset]? = none := by
    rw [List.getElem?_eq_none h3]
  simp only [KvStore.get, h1, h2, hn]

/-- Witness for C9 at a concrete input: the entry points at offset 0 of an
empty segment. -/
theorem kvs_c9_witness :
    KvStore.get ⟨[(1, [])], 1, [("k", ⟨1, 0⟩)], 0⟩ "k" = GetRes.ok none :=
  kvs_c9_exhausted_stream ⟨[(1, [])], 1, [("k", ⟨1, 0⟩)], 0⟩ "k" ⟨1, 0⟩ []
    (by decide) (by decide) (by decide)

/-- Claim C2: for every store reached by a sequence of successful operations,
closing it (the writer is unbuffered in the model) and reopening the same
directory (whose files are exactly the reader map's contents) yields a store
whose visible mapping, as observed by `get` on every key, equals that of the
in-memory store. -/
theorem kvs_c2_durable_reopen (s : KvStore) (hr : Reachable s) (k : String) :
    (openStore s.log_readers).get k = s.get k := by
  have hs := reachable_storeInv hr
  have hss : sortById s.log_readers = s.log_readers := sortById_eq_self hs.readersSorted
  have hA : ∀ i ∈ idsOf s.log_readers,
      i < ((s.log_readers.map Prod.fst).getLast?.getD 0) + 1 := by
    intro i hi
    have h1 := le_foldr_max hi
    have h2 : (idsOf s.log_readers).getLast?.getD 0 =
        (idsOf s.log_readers).foldr max 0 :=
      sorted_getLast_eq_foldr_max (hs.readersSorted.imp fun hab => le_of_lt hab)
    show i < (idsOf s.log_readers).getLast?.getD 0 + 1
    rw [h2]
    exact Nat.lt_succ_of_le h1
  have hins : insertSorted ((((s.log_readers.map Prod.fst).getLast?.getD 0) + 1), [])
      s.log_readers =
      s.log_readers ++ [((((s.log_readers.map Prod.fst).getLast?.getD 0) + 1), [])] :=
    insertSorted_append_end fun q hq =>
      not_le_of_gt (hA q.1 (List.mem_map_of_mem Prod.fst hq))
  have hopen : openStore s.log_readers =
      { log_readers :=
          s.log_readers ++ [((((s.log_readers.map Prod.fst).getLast?.getD 0) + 1), [])]
        log_id := (((s.log_readers.map Prod.fst).getLast?.getD 0) + 1)
        key_dir := s.key_dir
        size := (loadAll s.log_readers []).2 } := by
    simp only [openStore, hss, hins, hs.replayEq]
  rw [hopen]
  cases hd : dirLookup s.key_dir k with
  | none =>
    rw [get_of_dirLookup_none hd]
    exact get_of_dirLookup_none hd
  | some e =>
    obtain ⟨g, v, hg, hv⟩ := hs.pointsSet (k, e) (dirLookup_some_mem hd)
    have h1 : s.get k = GetRes.ok (some v) := by
      simp only [KvStore.get, hd, hg, hv]
    have h2 : assocLookup
        (s.log_readers ++ [((((s.log_readers.map Prod.fst).getLast?.getD 0) + 1), [])])
        e.log_id = some g := assocLookup_append_left hg
    have h3 : KvStore.get
        { log_readers :=
            s.log_readers ++ [((((s.log_readers.map Prod.fst).getLast?.getD 0) + 1), [])]
          log_id := (((s.log_readers.map Prod.fst).getLast?.getD 0) + 1)
          key_dir := s.key_dir
          size := (loadAll s.log_readers []).2 } k = GetRes.ok (some v) := by
      simp only [KvStore.get, hd, h2, hv]
    rw [h1, h3]

/-- Witness for C2 at a concrete input: the store obtained by `set "a" "1"`
after opening an empty directory, reopened from its files. -/
theorem kvs_c2_witness :
    (openStore (KvStore.log_readers
        ⟨[(1, [Command.Set "a" "1"])], 1, [("a", ⟨1, 0⟩)], 29⟩)).get "a" =
      KvStore.get ⟨[(1, [Command.Set "a" "1"])], 1, [("a", ⟨1, 0⟩)], 29⟩ "a" :=
  kvs_c2_durable_reopen ⟨[(1, [Command.Set "a" "1"])], 1, [("a", ⟨1, 0⟩)], 29⟩
    (@Reachable.setStep (openStore []) ⟨[(1, [Command.Set "a" "1"])], 1, [("a", ⟨1, 0⟩)], 29⟩
      "a" "1" (Reachable.opened [] (by decide)) (by decide)) "a"

/-- Counterexample to Claim C3: a directory entry whose segment id has no
reader makes `get` panic via `expect` with the message below; it does not
return an error result, and `KvsError` has no `CorruptIndex` variant at all. -/
theorem kvs_c3_counterexample :
    KvStore.get ⟨[(1, [])], 1, [("k", ⟨0, 0⟩)], 0⟩ "k" =
      GetRes.panicked "Could not find log reader!" := by decide

/-- Claim C3 as amended: for a key present in the directory, if the entry's
segment id has no reader, `get` panics (the `expect` call) rather than
returning an error; if a reader exists, `get` decodes one record at the
entry's offset and returns its value for a `Set`, or the error
`UnexpectedCommandType` for any other decoded record kind. -/
theorem kvs_c3_amended (s : KvStore) (k : String) (e : ValueEntry)
    (h : dirLookup s.key_dir k = some e) :
    (assocLookup s.log_readers e.log_id = none →
      s.get k = GetRes.panicked "Could not find log reader!") ∧
    (∀ (f : List Command) (key v : String),
      assocLookup s.log_readers e.log_id = some f →
      f[e.log_offset]? = some (Command.Set key v) → s.get k = GetRes.ok (some v)) ∧
    (∀ (f : List Command) (key : String),
      assocLookup s.log_readers e.log_id = some f →
      f[e.log_offset]? = some (Command.Remove key) →
      s.get k = GetRes.err KvsError.UnexpectedCommandType) := by
  refine ⟨?_, ?_, ?_⟩
  · intro hn
    simp only [KvStore.get, h, hn]
  · intro f key v hf hrec
    simp only [KvStore.get, h, hf, hrec]
  · intro f key hf hrec
    simp only [KvStore.get, h, hf, hrec]

/-- Witness for the amended C3, exercising all three branches at concrete
inputs. -/
theorem kvs_c3_witness :
    KvStore.get ⟨[(2, [])], 2, [("a", ⟨1, 0⟩)], 0⟩ "a" =
      GetRes.panicked "Could not find log reader!" ∧
    KvStore.get ⟨[(1, [Command.Set "a" "x"])], 1, [("a", ⟨1, 0⟩)], 28⟩ "a" =
      GetRes.ok (some "x") ∧
    KvStore.get ⟨[(1, [Command.Remove "a"])], 1, [("a", ⟨1, 0⟩)], 21⟩ "a" =
      GetRes.err KvsError.UnexpectedCommandType :=
  ⟨(kvs_c3_amended ⟨[(2, [])], 2, [("a", ⟨1, 0⟩)], 0⟩ "a" ⟨1, 0⟩ (by decide)).1 (by decide),
   (kvs_c3_amended ⟨[(1, [Command.Set "a" "x"])], 1, [("a", ⟨1, 0⟩)], 28⟩ "a" ⟨1, 0⟩
     (by decide)).2.1 [Command.Set "a" "x"] "a" "x" (by decide) (by decide),
   (kvs_c3_amended ⟨[(1, [Command.Remove "a"])], 1, [("a", ⟨1, 0⟩)], 21⟩ "a" ⟨1, 0⟩
     (by decide)).2.2 [Command.Remove "a"] "a" (by decide) (by decide)⟩

/-- Counterexample to Claim C4: a directory entry pointing at a `Remove`
record does not make compaction fail with `UnexpectedCommandType`; compaction
succeeds, silently skipping the entry (which is left pointing at segment 1,
deleted by the same compaction). -/
theorem kvs_c4_counterexample :
    KvStore.compact ⟨[(1, [Command.Remove "a"])], 1, [("a", ⟨1, 0⟩)], 21⟩ =
      OpRes.ok ⟨[(2, []), (3, [])], 3, [("a", ⟨1, 0⟩)], 0⟩ := by decide

/-- Claim C4 as amended: compaction never fails with `UnexpectedCommandType`;
a directory entry whose record decodes to a non-`Set` is silently skipped by
the compaction loop, its entry left unchanged, and the loop continues with
the remaining entries. -/
theorem kvs_c4_amended :
    (∀ s s₂ : KvStore, s.compact ≠ OpRes.err KvsError.UnexpectedCommandType s₂) ∧
    (∀ (tId : Nat) (k k' : String) (e : ValueEntry) (rest : Dir)
      (rds : List (Nat × List Command)) (size : Nat) (f : List Command),
      assocLookup rds e.log_id = some f →
      f[e.log_offset]? = some (Command.Remove k') →
      compactLoop tId ((k, e) :: rest) rds size =
        (compactLoop tId rest rds size).map (fun r => ((k, e) :: r.1, r.2))) :=
  ⟨fun s s₂ => compact_no_err s KvsError.UnexpectedCommandType s₂,
   fun tId k k' e rest rds size f hf hv =>
     compactLoop_skip_non_set tId k k' e rest rds size f hf hv⟩

/-- Witness for the amended C4 at concrete inputs. -/
theorem kvs_c4_witness :
    KvStore.compact ⟨[(1, [Command.Remove "b"])], 1, [("b", ⟨1, 0⟩)], 21⟩ ≠
      OpRes.err KvsError.UnexpectedCommandType ⟨[(1, [])], 1, [], 0⟩ ∧
    compactLoop 2 [("b", ⟨1, 0⟩)] [(1, [Command.Remove "b"]), (2, []), (3, [])] 0 =
      (compactLoop 2 ([] : Dir) [(1, [Command.Remove "b"]), (2, []), (3, [])] 0).map
        (fun r => (("b", (⟨1, 0⟩ : ValueEntry)) :: r.1, r.2)) :=
  ⟨kvs_c4_amended.1 ⟨[(1, [Command.Remove "b"])], 1, [("b", ⟨1, 0⟩)], 21⟩
      ⟨[(1, [])], 1, [], 0⟩,
   kvs_c4_amended.2 2 "b" "b" ⟨1, 0⟩ [] [(1, [Command.Remove "b"]), (2, []), (3, [])] 0
     [Command.Remove "b"] (by decide) (by decide)⟩

/-- Counterexample to Claim C5: the file name `007.log` matches
`^[0-9]+\.log$` yet `open` does not replay that file itself; the id pipeline
(`trim_end_matches(".log")` then `parse::<u64>`) maps it to segment 7, whose
replayed file is `7.log`. -/
theorem kvs_c5_counterexample : parseLogFileName "007.log" = some 7 := by decide

/-- Claim C5 as amended: `open` keeps a file when its extension is `log` and
its name, after stripping every trailing `.log`, parses as a `u64` (leading
zeros and a leading plus accepted); the derived id's numeric value names the
segment, so every canonical `<digits>.log` is accepted with its numeric
value (`007.log` becomes segment 7), and names such as `1.log.log` or
`+7.log` are also accepted rather than ignored, while `foo.log` and `7.txt`
are ignored. -/
theorem kvs_c5_amended :
    (∀ l : List Char, l ≠ [] → (∀ c ∈ l, c.isDigit = true) → digitsVal l < 2 ^ 64 →
      parseLogFileName (l.asString ++ ".log") = some (digitsVal l)) ∧
    parseLogFileName "1.log.log" = some 1 ∧
    parseLogFileName "+7.log" = some 7 ∧
    parseLogFileName "foo.log" = none ∧
    parseLogFileName "7.txt" = none := by
  refine ⟨?_, by decide, by decide, by decide, by decide⟩
  intro l hne hdig hlt
  have hnodot : ∀ c ∈ l, c ≠ '.' := by
    intro c hc he
    have hd := hdig c hc
    rw [he] at hd
    exact absurd hd (by decide)
  obtain ⟨c0, l', rfl⟩ : ∃ c0 l', l = c0 :: l' := by
    cases l with
    | nil => exact absurd rfl hne
    | cons a t => exact ⟨a, t, rfl⟩
  have h0 : c0 ≠ '.' := hnodot c0 (by simp)
  have hext : rustExtension ((c0 :: l').asString ++ ".log") = some "log" := by
    show (if c0 = '.' then (afterLastDot (l' ++ ['.', 'l', 'o', 'g'])).map List.asString
      else (afterLastDot (c0 :: (l' ++ ['.', 'l', 'o', 'g']))).map List.asString) =
      some "log"
    rw [if_neg h0]
    have hald : afterLastDot ((c0 :: l') ++ '.' :: ['l', 'o', 'g']) = some ['l', 'o', 'g'] :=
      afterLastDot_append (c0 :: l') (by decide)
    rw [show c0 :: (l' ++ ['.', 'l', 'o', 'g']) = (c0 :: l') ++ '.' :: ['l', 'o', 'g']
      from rfl]
    rw [hald]
    rfl
  have hrevdot : ∀ c ∈ (c0 :: l').reverse, c ≠ '.' := by
    intro c hc
    exact hnodot c (List.mem_reverse.mp hc)
  have htrim : trimEndMatchesLog ((c0 :: l').asString ++ ".log") = (c0 :: l').asString := by
    unfold trimEndMatchesLog
    have hrev : ((c0 :: l').asString ++ ".log").data.reverse =
        'g' :: 'o' :: 'l' :: '.' :: (c0 :: l').reverse := by
      show ((c0 :: l') ++ ['.', 'l', 'o', 'g']).reverse = _
      rw [List.reverse_append]
      rfl
    rw [hrev]
    rw [show stripLogRev ('g' :: 'o' :: 'l' :: '.' :: (c0 :: l').reverse) =
        stripLogRev ((c0 :: l').reverse) from by simp [stripLogRev]]
    rw [stripLogRev_no_dot hrevdot, List.reverse_reverse]
  have hplus : ¬ ((c0 :: l').head? = some '+') := by
    intro hcon
    have hc0 : c0 = '+' := by
      injection hcon
    have hd := hdig c0 (by simp)
    rw [hc0] at hd
    exact absurd hd (by decide)
  show (if rustExtension ((c0 :: l').asString ++ ".log") = some "log" then
      parseU64 (trimEndMatchesLog ((c0 :: l').asString ++ ".log")) else none) =
    some (digitsVal (c0 :: l'))
  rw [hext, if_pos rfl, htrim]
  exact parseU64_all_digits hne hdig hlt hplus

/-- Witness for the amended C5: the digit string `42` gives segment 42. -/
theorem kvs_c5_witness : parseLogFileName (['4', '2'].asString ++ ".log") = some 42 :=
  (kvs_c5_amended.1 ['4', '2'] (by decide) (by decide) (by decide)).trans (by decide)

/-- Claim C8: `open` sets the active segment id to `max(existing ids, 0) + 1`,
and on every reachable store (after any operation, compaction included, which
reserves target id `active + 1` and new active id `active + 2`) the active
segment id is strictly greater than every other segment id known to the
store. -/
theorem kvs_c8_active_id_max :
    (∀ files : List (Nat × List Command),
      (openStore files).log_id = (idsOf files).foldr max 0 + 1) ∧
    (∀ s : KvStore, Reachable s →
      ∀ i ∈ idsOf s.log_readers, i ≠ s.log_id → i < s.log_id) := by
  refine ⟨openStore_log_id, ?_⟩
  intro s hr i hi hne
  exact lt_of_le_of_ne ((reachable_storeInv hr).idsLe i hi) hne

/-- Witness for C8 at a concrete input: a directory holding segment 5. -/
theorem kvs_c8_witness :
    (openStore [(5, [])]).log_id = 6 ∧
    ((1 : Nat) ∈ idsOf (openStore [(5, [])]).log_readers → (1 : Nat) ≠ 6 → (1 : Nat) < 6) :=
  ⟨(kvs_c8_active_id_max.1 [(5, [])]).trans (by decide),
   fun hm hne => by
    have h6 : (openStore [(5, [])]).log_id = 6 :=
      (kvs_c8_active_id_max.1 [(5, [])]).trans (by decide)
    have := kvs_c8_active_id_max.2 (openStore [(5, [])])
      (Reachable.opened [(5, [])] (by decide)) 1 hm (by rw [h6]; exact hne)
    rw [h6] at this
    exact this⟩

/-- Claim C10: because the key directory is an ordered map, compaction
iterates keys in ascending order; when compaction succeeds, the target
segment `log_id + 1` contains only `Set` records, sorted strictly by key. -/
theorem kvs_c10_compaction_sorted (s s' : KvStore) (l : List Command)
    (hd : (s.key_dir.map Prod.fst).Pairwise (· < ·))
    (hc : s.compact = OpRes.ok s')
    (hl : assocLookup s'.log_readers (s.log_id + 1) = some l) :
    (∀ c ∈ l, c.isSet = true) ∧ (l.map Command.cmdKey).Pairwise (· < ·) := by
  cases hloop : compactLoop (s.log_id + 1) s.key_dir
      (insertSorted (s.log_id + 2, []) (insertSorted (s.log_id + 1, []) s.log_readers)) 0 with
  | none =>
    rw [show s.compact = OpRes.panicked "Could not find log reader!" from by
      simp [KvStore.compact, hloop]] at hc
    exact absurd hc (by simp)
  | some r =>
    have hc2 : s.compact = OpRes.ok
        { log_readers := r.2.1.filter fun p => decide (¬ p.1 < s.log_id + 1)
          log_id := s.log_id + 2
          key_dir := r.1
          size := r.2.2 } := by
      simp [KvStore.compact, hloop]
    rw [hc2] at hc
    injection hc with h1
    have hacc1 : assocLookup
        (insertSorted (s.log_id + 2, []) (insertSorted (s.log_id + 1, []) s.log_readers))
        (s.log_id + 1) = some [] := by
      rw [assocLookup_insertSorted_ne (s.log_id + 2, []) _ (by omega)]
      exact assocLookup_insertSorted_self (s.log_id + 1, []) s.log_readers
    obtain ⟨ws, hsub, hlook⟩ := compactLoop_target_sublist (s.log_id + 1) s.key_dir
      _ 0 [] r hacc1 hloop
    have hfl : assocLookup (r.2.1.filter fun p => decide (¬ p.1 < s.log_id + 1))
        (s.log_id + 1) = assocLookup r.2.1 (s.log_id + 1) := by
      refine assocLookup_filter ?_
      intro p _ hfalse
      simp only [decide_eq_false_iff_not, Decidable.not_not] at hfalse
      omega
    have hls : l = setsOf ws := by
      rw [← h1] at hl
      have : assocLookup (r.2.1.filter fun p => decide (¬ p.1 < s.log_id + 1))
          (s.log_id + 1) = some (setsOf ws) := by
        rw [hfl]
        simpa using hlook
      rw [this] at hl
      injection hl with h2
      exact h2.symm
    subst hls
    refine ⟨?_, ?_⟩
    · intro c hc'
      obtain ⟨w, _, rfl⟩ := List.mem_map.mp hc'
      rfl
    · have hkeys : (setsOf ws).map Command.cmdKey = ws.map Prod.fst := by
        unfold setsOf
        rw [List.map_map]
        rfl
      rw [hkeys]
      exact hd.sublist hsub

/-- Witness for C10 at a concrete input: compacting a store with keys `b`
and `a` written in that order produces a target segment sorted `a`, `b`. -/
theorem kvs_c10_witness :
    ([Command.Set "a" "1", Command.Set "b" "2"].map Command.cmdKey).Pairwise (· < ·) :=
  (kvs_c10_compaction_sorted
    ⟨[(1, [Command.Set "b" "2", Command.Set "a" "1"])], 1,
      [("a", ⟨1, 1⟩), ("b", ⟨1, 0⟩)], 58⟩
    ⟨[(2, [Command.Set "a" "1", Command.Set "b" "2"]), (3, [])], 3,
      [("a", ⟨2, 0⟩), ("b", ⟨2, 1⟩)], 58⟩
    [Command.Set "a" "1", Command.Set "b" "2"]
    (by
      simp only [List.map_cons, List.map_nil, List.pairwise_cons, List.mem_singleton,
        List.not_mem_nil, String.lt_iff_toList_lt]
      refine ⟨?_, ?_, List.Pairwise.nil⟩
      · intro b hb
        rw [hb]
        decide
      · intro b hb
        exact absurd hb id)
    (by decide) (by decide)).2
